import Mathlib

/-!
Verification development for the rusty-kaspa consensus/mining/orphan-pool core.

The Rust sources are shallowly embedded: machine integers (`u32`, `u64`,
`Uint256`, `Uint320`) become `Nat` with explicit `% 2 ^ w` wherever the source
arithmetic can wrap, fallible code (panics such as `unwrap`/`expect`/index out
of bounds/division by zero) returns `Option`, and stateful loops become
explicit state-passing recursion.
-/

namespace KaspaSpec

/-! ## Difficulty (src/consensus/src/processes/difficulty.rs)

`Uint256` / `Uint320` values are represented by `Nat` below the respective
modulus.  The `math` crate itself is not among the given sources, so the
compact-bits codec is reconstructed: see `from_compact_target_bits` and
`compact_target_bits`.
-/

/-- The `Uint256` modulus `2^256`. -/
def u256Mod : ℕ := 2 ^ 256

/-- The `Uint320` modulus `2^320`. -/
def u320Mod : ℕ := 2 ^ 320

/-- The `u64` modulus `2^64`. -/
def u64Mod : ℕ := 2 ^ 64

/-- `Uint256::MAX = 2^256 - 1`. -/
def u256Max : ℕ := 2 ^ 256 - 1

/-- Modelled from the spec: the `math` crate (`Uint256::from_compact_target_bits`)
is not among the given sources; the spec refers to the difficulty "compact bits"
representation by contract.  This is the standard OpenSSL/Bitcoin compact
("nBits") decoding: an 8-bit exponent and a 24-bit signed mantissa, a negative
mantissa decoding to zero, and the shift wrapping modulo `2^256`. -/
def from_compact_target_bits (bits : ℕ) : ℕ :=
  let unshiftedExpt := bits / 2 ^ 24
  let mant := if unshiftedExpt ≤ 3 then (bits % 2 ^ 24) / 2 ^ (8 * (3 - unshiftedExpt)) else bits % 2 ^ 24
  let expt := if unshiftedExpt ≤ 3 then 0 else 8 * (unshiftedExpt - 3)
  if 0x7FFFFF < mant then 0 else (mant * 2 ^ expt) % u256Mod

/-- Minimal number of bits needed to represent `n` (`Uint256::bits`). -/
def natBits (n : ℕ) : ℕ :=
  if n = 0 then 0 else Nat.log2 n + 1

/-- Modelled from the spec: the `math` crate (`Uint256::compact_target_bits`)
is not among the given sources.  Standard compact ("nBits") encoding: the
byte-size of the value and its top three bytes as mantissa, shifting once more
when the mantissa's sign bit would be set. -/
def compact_target_bits (t : ℕ) : ℕ :=
  let size := (natBits t + 7) / 8
  let compact := if size ≤ 3 then (t % u64Mod) * 2 ^ (8 * (3 - size)) else t / 2 ^ (8 * (size - 3))
  if compact &&& 0x800000 ≠ 0 then (compact / 2 ^ 8) ||| ((size + 1) * 2 ^ 24)
  else compact ||| (size * 2 ^ 24)

/-- `DifficultyBlock` (difficulty.rs).  `SortableBlock` (blue work, then hash)
is a totally ordered key; it is represented here by a single `Nat`. -/
structure DifficultyBlock where
  timestamp : ℕ
  bits : ℕ
  sortableBlock : ℕ
deriving DecidableEq, Repr

/-- The strict order underlying `Ord for DifficultyBlock`: timestamp first,
then the sortable block key. -/
def dbLt (a b : DifficultyBlock) : Prop :=
  a.timestamp < b.timestamp ∨ (a.timestamp = b.timestamp ∧ a.sortableBlock < b.sortableBlock)

instance : DecidablePred fun p : DifficultyBlock × DifficultyBlock => dbLt p.1 p.2 :=
  fun _ => by unfold dbLt; infer_instance

instance (a b : DifficultyBlock) : Decidable (dbLt a b) := by unfold dbLt; infer_instance

/-- `calc_average_target` (difficulty.rs lines 77-91).  Returns `none` exactly
where the source panics (`minmax().into_option().unwrap()` on an empty vector,
or a division by a zero `u64`).  `Uint256` subtraction is written as plain
`Nat` subtraction since the minuend is always at least the subtrahend
(`t ≥ min_target`), additions wrap modulo `2^256` / `2^320`, and
`Uint320::from` is the identity on the underlying value. -/
def calc_average_target (difficulty_blocks : List DifficultyBlock) : Option ℕ :=
  let targets := difficulty_blocks.map (fun b => from_compact_target_bits b.bits)
  let targetsLen := targets.length % u64Mod
  match targets with
  | [] => none
  | t :: ts =>
    if targetsLen = 0 then none
    else
      let minTarget := ts.foldl Nat.min t
      let maxTarget := ts.foldl Nat.max t
      if maxTarget - minTarget < u256Max / targetsLen then
        let offsetsSum := (t :: ts).foldl (fun acc x => (acc + (x - minTarget)) % u256Mod) 0
        some ((minTarget + offsetsSum / targetsLen) % u256Mod)
      else
        let targetsSum := (t :: ts).foldl (fun acc x => (acc + x) % u320Mod) 0
        some (targetsSum / targetsLen)

/-- `calc_average_target_unoptimized` (difficulty.rs lines 93-99).  `none`
models the division-by-zero panic on an empty (or `u64`-wrapping-length)
vector. -/
def calc_average_target_unoptimized (difficulty_blocks : List DifficultyBlock) : Option ℕ :=
  let difficultyBlocksLen := difficulty_blocks.length % u64Mod
  if difficultyBlocksLen = 0 then none
  else
    let targetsSum :=
      difficulty_blocks.foldl (fun acc b => (acc + from_compact_target_bits b.bits) % u320Mod) 0
    some (targetsSum / difficultyBlocksLen)

/-- `Iterator::position_minmax` on `DifficultyBlock`s, minimum side: running
index/best pair, replacing the best only on strictly smaller elements, so the
first of equal minima wins.  `i` is the index of the next list element. -/
def pos_min_go : ℕ → DifficultyBlock → ℕ → List DifficultyBlock → ℕ × DifficultyBlock
  | bi, best, _, [] => (bi, best)
  | bi, best, i, x :: xs =>
    if dbLt x best then pos_min_go i x (i + 1) xs else pos_min_go bi best (i + 1) xs

/-- `Iterator::position_minmax`, maximum side: the best is replaced whenever
the new element is not strictly smaller, so the last of equal maxima wins. -/
def pos_max_go : ℕ → DifficultyBlock → ℕ → List DifficultyBlock → ℕ × DifficultyBlock
  | bi, best, _, [] => (bi, best)
  | bi, best, i, x :: xs =>
    if dbLt x best then pos_max_go bi best (i + 1) xs else pos_max_go i x (i + 1) xs

/-- `Vec::swap_remove`: the element at `i` is replaced by the last element and
the last element is popped. -/
def swap_remove (l : List α) (i : ℕ) : List α :=
  match l.getLast? with
  | none => []
  | some last => (l.set i last).dropLast

/-- `DifficultyManager::calculate_difficulty_bits` (difficulty.rs lines 44-75).
The header-store lookup of each window hash is inlined: the window is given
directly as the list of `DifficultyBlock`s it maps to.  `none` models the
panics: `position_minmax().into_option().unwrap()` on an empty window, `u64`
division by zero, and `Uint256::try_from(...).expect(...)` for a target not
below `2^256`. -/
def calculate_difficulty_bits (genesis_bits : ℕ) (difficulty_adjustment_window_size : ℕ)
    (target_time_per_block : ℕ) (window : List DifficultyBlock) : Option ℕ :=
  if window.length < difficulty_adjustment_window_size then some genesis_bits
  else
    match window with
    | [] => none
    | b :: bs =>
      let minPos := pos_min_go 0 b 1 bs
      let maxPos := pos_max_go 0 b 1 bs
      let minTs := minPos.2.timestamp
      let maxTs := maxPos.2.timestamp
      let remaining := swap_remove (b :: bs) minPos.1
      let remainingLen := remaining.length % u64Mod
      match calc_average_target remaining with
      | none => none
      | some averageTarget =>
        if target_time_per_block % u64Mod = 0 ∨ remainingLen = 0 then none
        else
          let newTarget :=
            (averageTarget * Nat.max (maxTs - minTs) 1) % u320Mod / (target_time_per_block % u64Mod) /
              remainingLen
          if newTarget < u256Mod then some (compact_target_bits newTarget) else none

/-! ### Generic list lemmas -/

theorem u256Mod_pos : 0 < u256Mod := pow_pos (by norm_num) 256

theorem u320Mod_pos : 0 < u320Mod := pow_pos (by norm_num) 320

theorem from_compact_lt (bits : ℕ) : from_compact_target_bits bits < u256Mod := by
  simp only [from_compact_target_bits]
  repeat' split
  all_goals first | exact u256Mod_pos | exact Nat.mod_lt _ u256Mod_pos

theorem foldl_min_le_init (l : List ℕ) (a : ℕ) : l.foldl Nat.min a ≤ a := by
  induction l generalizing a with
  | nil => simp
  | cons x xs ih => exact le_trans (ih (Nat.min a x)) (Nat.min_le_left a x)

theorem foldl_min_le_mem (l : List ℕ) : ∀ a x, x ∈ l → l.foldl Nat.min a ≤ x := by
  induction l with
  | nil => intro a x hx; cases hx
  | cons y ys ih =>
    intro a x hx
    rcases List.mem_cons.mp hx with rfl | hmem
    · exact le_trans (foldl_min_le_init ys (Nat.min a x)) (Nat.min_le_right a x)
    · exact ih (Nat.min a y) x hmem

theorem foldl_min_mem (l : List ℕ) : ∀ a, l.foldl Nat.min a = a ∨ l.foldl Nat.min a ∈ l := by
  induction l with
  | nil => intro a; simp
  | cons x xs ih =>
    intro a
    rcases ih (Nat.min a x) with h | h
    · rcases le_total a x with hax | hax
      · left
        simp only [List.foldl_cons]
        rw [h]
        exact min_eq_left hax
      · right
        simp only [List.foldl_cons]
        rw [h]
        have hx : Nat.min a x = x := min_eq_right hax
        rw [hx]
        exact List.mem_cons_self x xs
    · right; exact List.mem_cons_of_mem x h

theorem le_foldl_max_init (l : List ℕ) (a : ℕ) : a ≤ l.foldl Nat.max a := by
  induction l generalizing a with
  | nil => simp
  | cons x xs ih => exact le_trans (Nat.le_max_left a x) (ih (Nat.max a x))

theorem le_foldl_max_mem (l : List ℕ) : ∀ a x, x ∈ l → x ≤ l.foldl Nat.max a := by
  induction l with
  | nil => intro a x hx; cases hx
  | cons y ys ih =>
    intro a x hx
    rcases List.mem_cons.mp hx with rfl | hmem
    · exact le_trans (Nat.le_max_right a x) (le_foldl_max_init ys (Nat.max a x))
    · exact ih (Nat.max a y) x hmem

theorem foldl_max_mem (l : List ℕ) : ∀ a, l.foldl Nat.max a = a ∨ l.foldl Nat.max a ∈ l := by
  induction l with
  | nil => intro a; simp
  | cons x xs ih =>
    intro a
    rcases ih (Nat.max a x) with h | h
    · rcases le_total a x with hax | hax
      · right
        simp only [List.foldl_cons]
        rw [h]
        have hx : Nat.max a x = x := max_eq_right hax
        rw [hx]
        exact List.mem_cons_self x xs
      · left
        simp only [List.foldl_cons]
        rw [h]
        exact max_eq_left hax
    · right; exact List.mem_cons_of_mem x h

theorem foldl_mod_add (m : ℕ) (f : α → ℕ) (l : List α) :
    ∀ a, l.foldl (fun acc x => (acc + f x) % m) (a % m) = (a + (l.map f).sum) % m := by
  induction l with
  | nil => intro a; simp
  | cons x xs ih =>
    intro a
    simp only [List.foldl_cons, List.map_cons, List.sum_cons]
    rw [Nat.mod_add_mod, ih (a + f x), Nat.add_assoc]

theorem foldl_mod_add_zero (m : ℕ) (f : α → ℕ) (l : List α) :
    l.foldl (fun acc x => (acc + f x) % m) 0 = (l.map f).sum % m := by
  have := foldl_mod_add m f l 0
  rwa [Nat.zero_mod, Nat.zero_add] at this

theorem sum_offsets_add (c : ℕ) (l : List ℕ) (h : ∀ x ∈ l, c ≤ x) :
    (l.map (fun x => x - c)).sum + l.length * c = l.sum := by
  induction l with
  | nil => simp
  | cons x xs ih =>
    simp only [List.map_cons, List.sum_cons, List.length_cons, Nat.succ_mul]
    have hx : c ≤ x := h x (List.mem_cons_self x xs)
    have hrest := ih (fun y hy => h y (List.mem_cons_of_mem x hy))
    omega

/-! ### Averaging-path arithmetic -/

theorem u64_u256_mul : u64Mod * u256Mod = u320Mod := by
  unfold u64Mod u256Mod u320Mod
  rw [← pow_add]

theorem u256Max_succ : u256Max + 1 = u256Mod := by
  norm_num [u256Mod, u256Max]

theorem sum_lt_u320 (l : List ℕ) (hl : ∀ x ∈ l, x < u256Mod) (hlen : l.length < u64Mod) :
    l.sum < u320Mod := by
  have hb : l.sum ≤ l.length * (u256Mod - 1) := by
    have := List.sum_le_card_nsmul l (u256Mod - 1) (fun x hx => by
      have := hl x hx
      omega)
    simpa [smul_eq_mul] using this
  have h2 : l.length * (u256Mod - 1) < u64Mod * u256Mod := by
    calc l.length * (u256Mod - 1) ≤ l.length * u256Mod := Nat.mul_le_mul_left _ (by omega)
      _ < u64Mod * u256Mod := (Nat.mul_lt_mul_right u256Mod_pos).mpr hlen
  rw [u64_u256_mul] at h2
  omega

theorem avg_slow_eq (t : ℕ) (ts : List ℕ) (hb : ∀ x ∈ t :: ts, x < u256Mod)
    (hn : ts.length + 1 < u64Mod) :
    (t :: ts).foldl (fun acc x => (acc + x) % u320Mod) 0 / (ts.length + 1) =
      (t :: ts).sum / (ts.length + 1) := by
  have hfold := foldl_mod_add_zero u320Mod (fun x => x) (t :: ts)
  rw [List.map_id'] at hfold
  rw [hfold, Nat.mod_eq_of_lt (sum_lt_u320 _ hb (by simpa using hn))]

theorem avg_fast_eq (t : ℕ) (ts : List ℕ) (hb : ∀ x ∈ t :: ts, x < u256Mod)
    (hc : ts.foldl Nat.max t - ts.foldl Nat.min t < u256Max / (ts.length + 1)) :
    (ts.foldl Nat.min t +
        (t :: ts).foldl (fun acc x => (acc + (x - ts.foldl Nat.min t)) % u256Mod) 0 /
          (ts.length + 1)) % u256Mod =
      (t :: ts).sum / (ts.length + 1) := by
  set m := ts.foldl Nat.min t with hm
  set M := ts.foldl Nat.max t with hM
  set n := ts.length + 1 with hn
  have hn0 : 0 < n := Nat.succ_pos _
  have hminle : ∀ x ∈ t :: ts, m ≤ x := by
    intro x hx
    rcases List.mem_cons.mp hx with rfl | hmem
    · exact foldl_min_le_init ts x
    · exact foldl_min_le_mem ts t x hmem
  have hmaxge : ∀ x ∈ t :: ts, x ≤ M := by
    intro x hx
    rcases List.mem_cons.mp hx with rfl | hmem
    · exact le_foldl_max_init ts x
    · exact le_foldl_max_mem ts t x hmem
  have hMmem : M ∈ t :: ts := by
    rcases foldl_max_mem ts t with h | h
    · rw [hM, h]; exact List.mem_cons_self t ts
    · exact List.mem_cons_of_mem t h
  have hmM : m ≤ M := le_trans (hminle t (List.mem_cons_self t ts)) (hmaxge t (List.mem_cons_self t ts))
  have hMlt : M < u256Mod := hb M hMmem
  set Soffs := ((t :: ts).map (fun x => x - m)).sum with hSoffs
  have hfold : (t :: ts).foldl (fun acc x => (acc + (x - m)) % u256Mod) 0 = Soffs % u256Mod :=
    foldl_mod_add_zero u256Mod (fun x => x - m) (t :: ts)
  have hlenmap : ((t :: ts).map (fun x => x - m)).length = n := by simp [hn]
  have h1 : Soffs ≤ n * (M - m) := by
    have := List.sum_le_card_nsmul ((t :: ts).map (fun x => x - m)) (M - m) (by
      intro y hy
      rcases List.mem_map.mp hy with ⟨x, hx, rfl⟩
      have h1 := hminle x hx
      have h2 := hmaxge x hx
      omega)
    rw [hlenmap] at this
    simpa [smul_eq_mul] using this
  have h2 : n * (M - m) + n ≤ n * (u256Max / n) := by
    have hstep : (M - m) + 1 ≤ u256Max / n := hc
    calc n * (M - m) + n = n * ((M - m) + 1) := by ring
      _ ≤ n * (u256Max / n) := Nat.mul_le_mul_left n hstep
  have h3 : n * (u256Max / n) ≤ u256Max := by
    rw [Nat.mul_comm]
    exact Nat.div_mul_le_self u256Max n
  have hSlt : Soffs < u256Mod := by
    have := u256Max_succ
    omega
  have hdivle : Soffs / n ≤ M - m := by
    have hd := Nat.div_le_div_right (c := n) h1
    rwa [Nat.mul_div_cancel_left _ hn0] at hd
  have houter : m + Soffs / n < u256Mod := by omega
  rw [hfold, Nat.mod_eq_of_lt hSlt, Nat.mod_eq_of_lt houter]
  have hsum : Soffs + n * m = (t :: ts).sum := by
    have := sum_offsets_add m (t :: ts) hminle
    rw [hSoffs]
    simpa [hn, Nat.mul_comm] using this
  rw [← hsum, Nat.add_mul_div_left _ _ hn0]
  omega



theorem calc_average_target_sum (b : DifficultyBlock) (bs : List DifficultyBlock)
    (hlen : (b :: bs).length < u64Mod) :
    calc_average_target (b :: bs) =
      some (((b :: bs).map fun x => from_compact_target_bits x.bits).sum / (b :: bs).length) := by
  have hlen' : (bs.length + 1) % u64Mod = bs.length + 1 := by
    apply Nat.mod_eq_of_lt
    simpa using hlen
  have hb : ∀ x ∈ from_compact_target_bits b.bits ::
      (bs.map fun x => from_compact_target_bits x.bits), x < u256Mod := by
    intro x hx
    rcases List.mem_cons.mp hx with rfl | hmem
    · exact from_compact_lt b.bits
    · rcases List.mem_map.mp hmem with ⟨y, _, rfl⟩
      exact from_compact_lt y.bits
  have hn : (bs.map fun x => from_compact_target_bits x.bits).length + 1 < u64Mod := by
    simpa using hlen
  simp only [calc_average_target, List.map_cons, List.length_cons, List.length_map]
  rw [hlen', if_neg (by omega)]
  split
  · exact congrArg some (by
      have := avg_fast_eq (from_compact_target_bits b.bits)
        (bs.map fun x => from_compact_target_bits x.bits) hb (by simpa using by assumption)
      simpa using this)
  · exact congrArg some (by
      have := avg_slow_eq (from_compact_target_bits b.bits)
        (bs.map fun x => from_compact_target_bits x.bits) hb hn
      simpa using this)



theorem calc_average_target_unoptimized_sum (v : List DifficultyBlock) (hne : v ≠ [])
    (hlen : v.length < u64Mod) :
    calc_average_target_unoptimized v =
      some ((v.map fun x => from_compact_target_bits x.bits).sum / v.length) := by
  have hlen' : v.length % u64Mod = v.length := Nat.mod_eq_of_lt hlen
  have hpos : 0 < v.length := List.length_pos.mpr hne
  simp only [calc_average_target_unoptimized]
  rw [hlen', if_neg (by omega)]
  have hfold := foldl_mod_add_zero u320Mod (fun b : DifficultyBlock => from_compact_target_bits b.bits) v
  rw [hfold]
  have hslt : ((v.map fun x => from_compact_target_bits x.bits).sum) < u320Mod := by
    apply sum_lt_u320
    · intro x hx
      rcases List.mem_map.mp hx with ⟨y, _, rfl⟩
      exact from_compact_lt y.bits
    · simpa using hlen
  rw [Nat.mod_eq_of_lt hslt]

/-- **C1.**  For every non-empty list of difficulty blocks (of `u64`-representable
length), the optimized average-target computation `calc_average_target` — fast
256-bit offset path when `max_target - min_target < U256::MAX / window_len`,
320-bit widening otherwise — returns exactly the same value as the unoptimized
computation `calc_average_target_unoptimized` that always widens every target
to 320 bits before summing and dividing. -/
theorem calc_average_target_eq_unoptimized (v : List DifficultyBlock) (hne : v ≠ [])
    (hlen : v.length < u64Mod) :
    calc_average_target v = calc_average_target_unoptimized v := by
  obtain ⟨b, bs, rfl⟩ := List.exists_cons_of_ne_nil hne
  rw [calc_average_target_sum b bs hlen, calc_average_target_unoptimized_sum _ hne hlen]

/-- Witness for C1 at a concrete two-block window. -/
theorem calc_average_target_eq_unoptimized_witness :
    ([⟨5, 0x1d00ffff, 0⟩, ⟨7, 0x1c7fff00, 1⟩] : List DifficultyBlock) ≠ [] ∧
      ([⟨5, 0x1d00ffff, 0⟩, ⟨7, 0x1c7fff00, 1⟩] : List DifficultyBlock).length < u64Mod ∧
      calc_average_target [⟨5, 0x1d00ffff, 0⟩, ⟨7, 0x1c7fff00, 1⟩] =
        calc_average_target_unoptimized [⟨5, 0x1d00ffff, 0⟩, ⟨7, 0x1c7fff00, 1⟩] :=
  ⟨by decide, by norm_num [u64Mod], calc_average_target_eq_unoptimized _ (by decide) (by norm_num [u64Mod])⟩

/-- **C10.**  For every difficulty window containing fewer than
`difficulty_adjustment_window_size` blocks, `calculate_difficulty_bits`
returns the configured `genesis_bits` unchanged. -/
theorem calculate_difficulty_bits_underfull (genesis_bits windowSize tpb : ℕ)
    (window : List DifficultyBlock) (h : window.length < windowSize) :
    calculate_difficulty_bits genesis_bits windowSize tpb window = some genesis_bits := by
  simp [calculate_difficulty_bits, h]

/-- Witness for C10: a single-block window under a window size of 3. -/
theorem calculate_difficulty_bits_underfull_witness :
    ([⟨5, 0x1d00ffff, 0⟩] : List DifficultyBlock).length < 3 ∧
      calculate_difficulty_bits 486604799 3 1000 [⟨5, 0x1d00ffff, 0⟩] = some 486604799 :=
  ⟨by decide, calculate_difficulty_bits_underfull 486604799 3 1000 _ (by decide)⟩


/-! ### position-minmax and swap-remove lemmas -/

theorem pos_min_go_result (xs : List DifficultyBlock) : ∀ bi best i,
    pos_min_go bi best i xs = (bi, best) ∨
      ∃ j, ∃ hj : j < xs.length, pos_min_go bi best i xs = (i + j, xs.get ⟨j, hj⟩) := by
  induction xs with
  | nil => intro bi best i; left; rfl
  | cons x xs ih =>
    intro bi best i
    by_cases hx : dbLt x best
    · right
      rw [pos_min_go, if_pos hx]
      rcases ih i x (i + 1) with h | ⟨j, hj, h⟩
      · exact ⟨0, Nat.succ_pos _, by simpa using h⟩
      · exact ⟨j + 1, by simpa using Nat.succ_lt_succ hj, by rw [h, show i + 1 + j = i + (j + 1) from by omega]; rfl⟩
    · rw [pos_min_go, if_neg hx]
      rcases ih bi best (i + 1) with h | ⟨j, hj, h⟩
      · left; exact h
      · right
        exact ⟨j + 1, by simpa using Nat.succ_lt_succ hj, by rw [h, show i + 1 + j = i + (j + 1) from by omega]; rfl⟩

theorem pos_max_go_result (xs : List DifficultyBlock) : ∀ bi best i,
    pos_max_go bi best i xs = (bi, best) ∨
      ∃ j, ∃ hj : j < xs.length, pos_max_go bi best i xs = (i + j, xs.get ⟨j, hj⟩) := by
  induction xs with
  | nil => intro bi best i; left; rfl
  | cons x xs ih =>
    intro bi best i
    by_cases hx : dbLt x best
    · rw [pos_max_go, if_pos hx]
      rcases ih bi best (i + 1) with h | ⟨j, hj, h⟩
      · left; exact h
      · right
        exact ⟨j + 1, by simpa using Nat.succ_lt_succ hj, by rw [h, show i + 1 + j = i + (j + 1) from by omega]; rfl⟩
    · right
      rw [pos_max_go, if_neg hx]
      rcases ih i x (i + 1) with h | ⟨j, hj, h⟩
      · exact ⟨0, Nat.succ_pos _, by simpa using h⟩
      · exact ⟨j + 1, by simpa using Nat.succ_lt_succ hj, by rw [h, show i + 1 + j = i + (j + 1) from by omega]; rfl⟩

theorem pos_min_go_minimal (xs : List DifficultyBlock) : ∀ bi best i,
    ¬ dbLt best (pos_min_go bi best i xs).2 ∧
      ∀ x ∈ xs, ¬ dbLt x (pos_min_go bi best i xs).2 := by
  induction xs with
  | nil =>
    intro bi best i
    refine ⟨?_, by simp⟩
    simp only [pos_min_go, dbLt]
    omega
  | cons x xs ih =>
    intro bi best i
    by_cases hx : dbLt x best
    · rw [pos_min_go, if_pos hx]
      obtain ⟨h1, h2⟩ := ih i x (i + 1)
      refine ⟨?_, ?_⟩
      · simp only [dbLt] at hx h1 ⊢
        omega
      · intro y hy
        rcases List.mem_cons.mp hy with rfl | hmem
        · exact h1
        · exact h2 y hmem
    · rw [pos_min_go, if_neg hx]
      obtain ⟨h1, h2⟩ := ih bi best (i + 1)
      refine ⟨h1, ?_⟩
      intro y hy
      rcases List.mem_cons.mp hy with rfl | hmem
      · simp only [dbLt] at hx h1 ⊢
        omega
      · exact h2 y hmem

theorem pos_max_go_maximal (xs : List DifficultyBlock) : ∀ bi best i,
    ¬ dbLt (pos_max_go bi best i xs).2 best ∧
      ∀ x ∈ xs, ¬ dbLt (pos_max_go bi best i xs).2 x := by
  induction xs with
  | nil =>
    intro bi best i
    refine ⟨?_, by simp⟩
    simp only [pos_max_go, dbLt]
    omega
  | cons x xs ih =>
    intro bi best i
    by_cases hx : dbLt x best
    · rw [pos_max_go, if_pos hx]
      obtain ⟨h1, h2⟩ := ih bi best (i + 1)
      refine ⟨h1, ?_⟩
      intro y hy
      rcases List.mem_cons.mp hy with rfl | hmem
      · simp only [dbLt] at hx h1 ⊢
        omega
      · exact h2 y hmem
    · rw [pos_max_go, if_neg hx]
      obtain ⟨h1, h2⟩ := ih i x (i + 1)
      refine ⟨?_, ?_⟩
      · simp only [dbLt] at hx h1 ⊢
        omega
      · intro y hy
        rcases List.mem_cons.mp hy with rfl | hmem
        · exact h1
        · exact h2 y hmem



theorem swap_remove_cons_succ (a b : α) (l : List α) (i : ℕ) :
    swap_remove (a :: b :: l) (i + 1) = a :: swap_remove (b :: l) i := by
  unfold swap_remove
  rw [List.getLast?_cons_cons, List.getLast?_eq_getLast (b :: l) (by simp)]
  simp only [List.set_cons_succ]
  have hset : ∃ c cs, (b :: l).set i ((b :: l).getLast (by simp)) = c :: cs := by
    cases i with
    | zero => exact ⟨_, _, List.set_cons_zero b l _⟩
    | succ n => exact ⟨_, _, List.set_cons_succ b l n _⟩
  obtain ⟨c, cs, hcs⟩ := hset
  rw [hcs, List.dropLast_cons₂]

theorem swap_remove_zero_cons (a b : α) (l : List α) :
    swap_remove (a :: b :: l) 0 =
      (b :: l).getLast (by simp) :: (b :: l).dropLast := by
  unfold swap_remove
  rw [List.getLast?_cons_cons, List.getLast?_eq_getLast (b :: l) (by simp)]
  simp only [List.set_cons_zero]
  exact List.dropLast_cons₂

theorem map_sum_dropLast_getLast (f : α → ℕ) (l : List α) (hl : l ≠ []) :
    (l.dropLast.map f).sum + f (l.getLast hl) = (l.map f).sum := by
  conv_rhs => rw [← List.dropLast_append_getLast hl]
  rw [List.map_append, List.sum_append]
  simp

theorem swap_remove_map_sum (f : α → ℕ) : ∀ (l : List α) (i : ℕ) (hi : i < l.length),
    ((swap_remove l i).map f).sum + f (l.get ⟨i, hi⟩) = (l.map f).sum := by
  intro l
  induction l with
  | nil => intro i hi; simp at hi
  | cons a l ih =>
    intro i hi
    cases i with
    | zero =>
      cases l with
      | nil => simp [swap_remove]
      | cons b l' =>
        rw [swap_remove_zero_cons]
        simp only [List.map_cons, List.sum_cons, List.get]
        have := map_sum_dropLast_getLast f (b :: l') (by simp)
        simp only [List.map_cons, List.sum_cons] at this ⊢
        omega
    | succ i' =>
      cases l with
      | nil => simp at hi
      | cons b l' =>
        rw [swap_remove_cons_succ]
        simp only [List.map_cons, List.sum_cons]
        have := ih i' (by simpa using hi)
        have hget : (a :: b :: l').get ⟨i' + 1, hi⟩ = (b :: l').get ⟨i', by simpa using hi⟩ := rfl
        rw [hget]
        simp only [List.map_cons, List.sum_cons] at this ⊢
        omega

theorem swap_remove_length (l : List α) (i : ℕ) (hi : i < l.length) :
    (swap_remove l i).length = l.length - 1 := by
  have hne : l ≠ [] := by
    intro h
    rw [h] at hi
    simp at hi
  unfold swap_remove
  rw [List.getLast?_eq_getLast l hne]
  simp [List.length_dropLast, List.length_set]

theorem swap_remove_subset (l : List α) (i : ℕ) : ∀ x ∈ swap_remove l i, x ∈ l := by
  intro x hx
  unfold swap_remove at hx
  cases hl : l.getLast? with
  | none => rw [hl] at hx; simp at hx
  | some g =>
    rw [hl] at hx
    have hx' : x ∈ l.set i g := List.dropLast_subset _ hx
    rcases List.mem_or_eq_of_mem_set hx' with h | rfl
    · exact h
    · rcases List.mem_getLast?_eq_getLast hl with ⟨hne, rfl⟩
      exact List.getLast_mem hne


/-- The minimum timestamp of a (non-empty) difficulty window. -/
def min_timestamp : List DifficultyBlock → ℕ
  | [] => 0
  | b :: bs => (bs.map DifficultyBlock.timestamp).foldl Nat.min b.timestamp

/-- The maximum timestamp of a (non-empty) difficulty window. -/
def max_timestamp : List DifficultyBlock → ℕ
  | [] => 0
  | b :: bs => (bs.map DifficultyBlock.timestamp).foldl Nat.max b.timestamp

theorem min_timestamp_le (b : DifficultyBlock) (bs : List DifficultyBlock) :
    ∀ x ∈ b :: bs, min_timestamp (b :: bs) ≤ x.timestamp := by
  intro x hx
  rcases List.mem_cons.mp hx with rfl | hmem
  · exact foldl_min_le_init _ _
  · exact foldl_min_le_mem _ _ _ (List.mem_map_of_mem DifficultyBlock.timestamp hmem)

theorem min_timestamp_mem (b : DifficultyBlock) (bs : List DifficultyBlock) :
    ∃ x ∈ b :: bs, x.timestamp = min_timestamp (b :: bs) := by
  rcases foldl_min_mem (bs.map DifficultyBlock.timestamp) b.timestamp with h | h
  · exact ⟨b, List.mem_cons_self b bs, h.symm⟩
  · rcases List.mem_map.mp h with ⟨x, hmem, hx⟩
    exact ⟨x, List.mem_cons_of_mem b hmem, by rw [min_timestamp, ← hx]⟩

theorem le_max_timestamp (b : DifficultyBlock) (bs : List DifficultyBlock) :
    ∀ x ∈ b :: bs, x.timestamp ≤ max_timestamp (b :: bs) := by
  intro x hx
  rcases List.mem_cons.mp hx with rfl | hmem
  · exact le_foldl_max_init _ _
  · exact le_foldl_max_mem _ _ _ (List.mem_map_of_mem DifficultyBlock.timestamp hmem)

theorem max_timestamp_mem (b : DifficultyBlock) (bs : List DifficultyBlock) :
    ∃ x ∈ b :: bs, x.timestamp = max_timestamp (b :: bs) := by
  rcases foldl_max_mem (bs.map DifficultyBlock.timestamp) b.timestamp with h | h
  · exact ⟨b, List.mem_cons_self b bs, h.symm⟩
  · rcases List.mem_map.mp h with ⟨x, hmem, hx⟩
    exact ⟨x, List.mem_cons_of_mem b hmem, by rw [max_timestamp, ← hx]⟩

theorem pos_min_at (b : DifficultyBlock) (bs : List DifficultyBlock) :
    ∃ k, ∃ hk : k < (b :: bs).length, pos_min_go 0 b 1 bs = (k, (b :: bs).get ⟨k, hk⟩) := by
  rcases pos_min_go_result bs 0 b 1 with h | ⟨j, hj, h⟩
  · exact ⟨0, by simp, by rw [h]; rfl⟩
  · refine ⟨j + 1, by simpa using Nat.succ_lt_succ hj, ?_⟩
    rw [h, show 1 + j = j + 1 from by omega]
    rfl

theorem pos_max_at (b : DifficultyBlock) (bs : List DifficultyBlock) :
    ∃ k, ∃ hk : k < (b :: bs).length, pos_max_go 0 b 1 bs = (k, (b :: bs).get ⟨k, hk⟩) := by
  rcases pos_max_go_result bs 0 b 1 with h | ⟨j, hj, h⟩
  · exact ⟨0, by simp, by rw [h]; rfl⟩
  · refine ⟨j + 1, by simpa using Nat.succ_lt_succ hj, ?_⟩
    rw [h, show 1 + j = j + 1 from by omega]
    rfl

theorem pos_min_timestamp_min (b : DifficultyBlock) (bs : List DifficultyBlock) :
    ∀ x ∈ b :: bs, (pos_min_go 0 b 1 bs).2.timestamp ≤ x.timestamp := by
  intro x hx
  obtain ⟨h1, h2⟩ := pos_min_go_minimal bs 0 b 1
  rcases List.mem_cons.mp hx with rfl | hmem
  · simp only [dbLt] at h1
    omega
  · have := h2 x hmem
    simp only [dbLt] at this
    omega

theorem pos_max_timestamp_max (b : DifficultyBlock) (bs : List DifficultyBlock) :
    ∀ x ∈ b :: bs, x.timestamp ≤ (pos_max_go 0 b 1 bs).2.timestamp := by
  intro x hx
  obtain ⟨h1, h2⟩ := pos_max_go_maximal bs 0 b 1
  rcases List.mem_cons.mp hx with rfl | hmem
  · simp only [dbLt] at h1
    omega
  · have := h2 x hmem
    simp only [dbLt] at this
    omega

theorem pos_min_go_mem (b : DifficultyBlock) (bs : List DifficultyBlock) :
    (pos_min_go 0 b 1 bs).2 ∈ b :: bs := by
  obtain ⟨k, hk, h⟩ := pos_min_at b bs
  rw [h]
  exact List.get_mem _ _ _

theorem pos_max_go_mem (b : DifficultyBlock) (bs : List DifficultyBlock) :
    (pos_max_go 0 b 1 bs).2 ∈ b :: bs := by
  obtain ⟨k, hk, h⟩ := pos_max_at b bs
  rw [h]
  exact List.get_mem _ _ _

theorem pos_min_go_eq_min_timestamp (b : DifficultyBlock) (bs : List DifficultyBlock) :
    (pos_min_go 0 b 1 bs).2.timestamp = min_timestamp (b :: bs) := by
  obtain ⟨x, hxmem, hx⟩ := min_timestamp_mem b bs
  have h1 := pos_min_timestamp_min b bs x hxmem
  have h2 := min_timestamp_le b bs _ (pos_min_go_mem b bs)
  omega

theorem pos_max_go_eq_max_timestamp (b : DifficultyBlock) (bs : List DifficultyBlock) :
    (pos_max_go 0 b 1 bs).2.timestamp = max_timestamp (b :: bs) := by
  obtain ⟨x, hxmem, hx⟩ := max_timestamp_mem b bs
  have h1 := pos_max_timestamp_max b bs x hxmem
  have h2 := le_max_timestamp b bs _ (pos_max_go_mem b bs)
  omega



/-- **C3.**  For a difficulty window holding exactly
`difficulty_adjustment_window_size = W` blocks (with `u64`-representable
length, timestamps and target time, and `W ≥ 2`), `calculate_difficulty_bits`
removes exactly a block of minimum timestamp from the window, averages the
targets of the remaining `W - 1` blocks, and returns the compact-bits encoding
of `average_target * max(max_ts - min_ts, 1) / target_time_per_block / (W-1)`,
failing (`none`, the `expect` panic) exactly when the resulting target does
not fit in 256 bits. -/
theorem calculate_difficulty_bits_spec (g W tpb : ℕ) (window : List DifficultyBlock)
    (hW : window.length = W) (h2 : 2 ≤ W) (hWlt : W < u64Mod)
    (htpb0 : 0 < tpb) (htpblt : tpb < u64Mod)
    (hts : ∀ x ∈ window, x.timestamp < u64Mod) :
    ∃ k, ∃ hk : k < window.length,
      (∀ x ∈ window, (window.get ⟨k, hk⟩).timestamp ≤ x.timestamp) ∧
      calculate_difficulty_bits g W tpb window =
        (let srem := (window.map fun x => from_compact_target_bits x.bits).sum -
            from_compact_target_bits (window.get ⟨k, hk⟩).bits
         let newTarget := srem / (W - 1) * Nat.max (max_timestamp window - min_timestamp window) 1 /
            tpb / (W - 1)
         if newTarget < u256Mod then some (compact_target_bits newTarget) else none) := by
  obtain ⟨b, bs, rfl⟩ : ∃ b bs, window = b :: bs := by
    rcases window with _ | ⟨b, bs⟩
    · simp at hW; omega
    · exact ⟨b, bs, rfl⟩
  obtain ⟨k, hk, hpos⟩ := pos_min_at b bs
  refine ⟨k, hk, ?_, ?_⟩
  · intro x hx
    have := pos_min_timestamp_min b bs x hx
    rw [hpos] at this
    exact this
  simp only [calculate_difficulty_bits]
  rw [if_neg (by omega)]
  have hmints : ((b :: bs).get ⟨k, hk⟩).timestamp = min_timestamp (b :: bs) := by
    have := pos_min_go_eq_min_timestamp b bs
    rw [hpos] at this
    exact this
  have hmaxts := pos_max_go_eq_max_timestamp b bs
  -- remaining window facts
  have hlenrem : (swap_remove (b :: bs) k).length = W - 1 := by
    rw [swap_remove_length (b :: bs) k hk, hW]
  obtain ⟨c, cs, hrem⟩ : ∃ c cs, swap_remove (b :: bs) k = c :: cs := by
    rcases hsw : swap_remove (b :: bs) k with _ | ⟨c, cs⟩
    · rw [hsw] at hlenrem; simp at hlenrem; omega
    · exact ⟨c, cs, rfl⟩
  have hlenccs : (c :: cs).length = W - 1 := by rw [← hrem]; exact hlenrem
  have havg : calc_average_target (c :: cs) =
      some (((c :: cs).map fun x => from_compact_target_bits x.bits).sum / (W - 1)) := by
    rw [calc_average_target_sum c cs (by rw [hlenccs]; omega), hlenccs]
  have hsum : ((c :: cs).map fun x => from_compact_target_bits x.bits).sum =
      ((b :: bs).map fun x => from_compact_target_bits x.bits).sum -
        from_compact_target_bits ((b :: bs).get ⟨k, hk⟩).bits := by
    have := swap_remove_map_sum (fun x => from_compact_target_bits x.bits) (b :: bs) k hk
    rw [hrem] at this
    omega
  rw [hpos]
  simp only [hrem, havg]
  rw [hlenccs]
  have htpbmod : tpb % u64Mod = tpb := Nat.mod_eq_of_lt htpblt
  have hW1mod : (W - 1) % u64Mod = W - 1 := Nat.mod_eq_of_lt (by omega)
  rw [htpbmod, hW1mod, if_neg (by omega)]
  rw [hmaxts, hmints]
  have hu64two : 2 ≤ u64Mod := by norm_num [u64Mod]
  have hSr : ((c :: cs).map fun x => from_compact_target_bits x.bits).sum ≤
      (W - 1) * (u256Mod - 1) := by
    have := List.sum_le_card_nsmul ((c :: cs).map fun x => from_compact_target_bits x.bits)
      (u256Mod - 1) (by
        intro y hy
        rcases List.mem_map.mp hy with ⟨x, _, rfl⟩
        have := from_compact_lt x.bits
        omega)
    rw [List.length_map, hlenccs] at this
    simpa [smul_eq_mul] using this
  have havgle : ((c :: cs).map fun x => from_compact_target_bits x.bits).sum / (W - 1) ≤
      u256Mod - 1 := by
    have hd := Nat.div_le_div_right (c := W - 1) hSr
    rwa [Nat.mul_div_cancel_left _ (by omega : 0 < W - 1)] at hd
  have hdelta : max_timestamp (b :: bs) - min_timestamp (b :: bs) ≤ u64Mod - 1 := by
    obtain ⟨x, hxmem, hx⟩ := max_timestamp_mem b bs
    have := hts x hxmem
    omega
  have hmax1 : Nat.max (max_timestamp (b :: bs) - min_timestamp (b :: bs)) 1 ≤ u64Mod - 1 :=
    max_le hdelta (by omega)
  have hprod : ((c :: cs).map fun x => from_compact_target_bits x.bits).sum / (W - 1) *
      Nat.max (max_timestamp (b :: bs) - min_timestamp (b :: bs)) 1 < u320Mod := by
    have hbig : (u256Mod - 1) * (u64Mod - 1) < u320Mod := by
      have hstep : (u256Mod - 1) * (u64Mod - 1) ≤ u256Mod * (u64Mod - 1) :=
        Nat.mul_le_mul_right _ (by omega)
      have hstep2 : u256Mod * (u64Mod - 1) < u256Mod * u64Mod :=
        (Nat.mul_lt_mul_left u256Mod_pos).mpr (by omega)
      have : u256Mod * u64Mod = u320Mod := by rw [Nat.mul_comm]; exact u64_u256_mul
      omega
    calc ((c :: cs).map fun x => from_compact_target_bits x.bits).sum / (W - 1) *
          Nat.max (max_timestamp (b :: bs) - min_timestamp (b :: bs)) 1
        ≤ (u256Mod - 1) * (u64Mod - 1) := Nat.mul_le_mul havgle hmax1
      _ < u320Mod := hbig
  rw [Nat.mod_eq_of_lt hprod, hsum]


/-- Witness for C3 at a concrete two-block window (`W = 2`). -/
theorem calculate_difficulty_bits_spec_witness :
    ∃ k, ∃ hk : k < ([⟨5, 0x1d00ffff, 0⟩, ⟨7, 0x1c7fff00, 1⟩] : List DifficultyBlock).length,
      (∀ x ∈ ([⟨5, 0x1d00ffff, 0⟩, ⟨7, 0x1c7fff00, 1⟩] : List DifficultyBlock),
        (([⟨5, 0x1d00ffff, 0⟩, ⟨7, 0x1c7fff00, 1⟩] : List DifficultyBlock).get ⟨k, hk⟩).timestamp ≤
          x.timestamp) ∧
      calculate_difficulty_bits 0 2 1000 [⟨5, 0x1d00ffff, 0⟩, ⟨7, 0x1c7fff00, 1⟩] =
        (let srem := (([⟨5, 0x1d00ffff, 0⟩, ⟨7, 0x1c7fff00, 1⟩] : List DifficultyBlock).map
              fun x => from_compact_target_bits x.bits).sum -
            from_compact_target_bits
              (([⟨5, 0x1d00ffff, 0⟩, ⟨7, 0x1c7fff00, 1⟩] : List DifficultyBlock).get ⟨k, hk⟩).bits
         let newTarget := srem / (2 - 1) *
            Nat.max (max_timestamp [⟨5, 0x1d00ffff, 0⟩, ⟨7, 0x1c7fff00, 1⟩] -
              min_timestamp [⟨5, 0x1d00ffff, 0⟩, ⟨7, 0x1c7fff00, 1⟩]) 1 / 1000 / (2 - 1)
         if newTarget < u256Mod then some (compact_target_bits newTarget) else none) :=
  calculate_difficulty_bits_spec 0 2 1000 _ (by decide) (by decide) (by norm_num [u64Mod])
    (by decide) (by norm_num [u64Mod]) (by decide)



/-! ## Mempool frontier (src/mining/src/mempool/model/frontier.rs,
frontier/feerate_key.rs)

The `f64` sampling weights are modelled by exact rationals, the `sweep_bptree`
B+ tree by its key list (tree order is irrelevant to the claims below; the
argument-augmented tree is represented by the cumulative-weight search
`get_by_argument`), and the transaction by its id.  The thread rng is
modelled by the list of uniform queries it would produce. -/

/-- Modelled from the spec: the weight exponent `ALPHA`
(src/mining/src/block_template/selector.rs is not among the given sources);
the spec fixes `weight = feerate^ALPHA`. -/
def ALPHA : ℕ := 3

/-- `FeerateTransactionKey`: fee, artificial priority fee, mass, and the
transaction (represented by its id). -/
structure FeerateTransactionKey where
  fee : ℕ
  priority_fee : ℕ
  mass : ℕ
  txId : ℕ
deriving DecidableEq, Repr

/-- `FeerateTransactionKey::feerate`: `priority_fee / mass` (as an exact
rational standing for the `f64`). -/
def feerate (k : FeerateTransactionKey) : ℚ := (k.priority_fee : ℚ) / (k.mass : ℚ)

/-- The sampling weight `feerate^ALPHA` used by `Frontier::insert/remove` and
by the `FeerateWeight` tree argument. -/
def keyWeight (k : FeerateTransactionKey) : ℚ := feerate k ^ ALPHA

/-- Equality of keys under the `Ord for FeerateTransactionKey` comparator
(weight, then priority fee, then transaction id) — the notion of "same key"
used by the B+ tree. -/
def keyEq (a b : FeerateTransactionKey) : Prop :=
  keyWeight a = keyWeight b ∧ a.priority_fee = b.priority_fee ∧ a.txId = b.txId

instance (a b : FeerateTransactionKey) : Decidable (keyEq a b) := by
  unfold keyEq; infer_instance

/-- `l.any (cmp-equal to key)`: whether the tree holds a key comparing equal. -/
def cmpMem (key : FeerateTransactionKey) (l : List FeerateTransactionKey) : Bool :=
  l.any fun x => decide (keyEq x key)

/-- `Frontier` (frontier.rs lines 68-77): the key set plus running totals. -/
structure Frontier where
  keys : List FeerateTransactionKey
  total_weight : ℚ
  total_mass : ℕ
deriving DecidableEq, Repr

/-- `Frontier::insert` (frontier.rs lines 86-95): a no-op returning `false`
when a tree-equal key is already present, otherwise the key is added and the
totals grow by its weight and mass. -/
def Frontier.insert (f : Frontier) (key : FeerateTransactionKey) : Frontier × Bool :=
  if cmpMem key f.keys then (f, false)
  else
    ({ keys := f.keys ++ [key], total_weight := f.total_weight + keyWeight key,
       total_mass := f.total_mass + key.mass }, true)

/-- `Frontier::remove` (frontier.rs lines 97-106): when a tree-equal key is
present it is removed and the argument key's weight and mass are subtracted
from the totals; otherwise a no-op returning `false`. -/
def Frontier.remove (f : Frontier) (key : FeerateTransactionKey) : Frontier × Bool :=
  if cmpMem key f.keys then
    ({ keys := f.keys.eraseP fun x => decide (keyEq x key),
       total_weight := f.total_weight - keyWeight key,
       total_mass := f.total_mass - key.mass }, true)
  else (f, false)

/-- The frontier representation invariant: keys are pairwise distinct under
the tree comparator, and the running totals are the sums of the contained
keys' weights and masses (spec: `total_weight = Σ key.feerate^ALPHA`,
`total_mass = Σ key.mass`). -/
def Frontier.Wf (f : Frontier) : Prop :=
  f.keys.Pairwise (fun a b => ¬ keyEq a b) ∧
  f.total_weight = (f.keys.map keyWeight).sum ∧
  f.total_mass = (f.keys.map FeerateTransactionKey.mass).sum



theorem keyEq_symm : Symmetric fun a b : FeerateTransactionKey => ¬ keyEq a b := by
  intro a b h hba
  exact h ⟨hba.1.symm, hba.2.1.symm, hba.2.2.symm⟩

/-- **C4.**  The `Frontier` invariant `total_weight = Σ keyWeight` /
`total_mass = Σ mass` (together with tree-key uniqueness) is preserved by
every `insert` and every `remove`: `insert` adds the key's weight and mass
exactly when no tree-equal key was present (returning `true` exactly then),
and `remove` of a contained key removes it and subtracts its weight and mass
(returning `true`), while `remove` of an absent key changes nothing. -/
theorem frontier_insert_remove_invariant (f : Frontier) (key : FeerateTransactionKey)
    (hwf : f.Wf) :
    ((f.insert key).1.Wf ∧ ((f.insert key).2 = true ↔ ¬ ∃ k ∈ f.keys, keyEq k key)) ∧
    (key ∈ f.keys →
      (f.remove key).1.Wf ∧ (f.remove key).2 = true ∧
        (f.remove key).1.keys.length + 1 = f.keys.length) ∧
    ((¬ ∃ k ∈ f.keys, keyEq k key) → (f.remove key).1 = f ∧ (f.remove key).2 = false) := by
  obtain ⟨hpw, hw, hm⟩ := hwf
  have hcm : cmpMem key f.keys = true ↔ ∃ k ∈ f.keys, keyEq k key := by
    simp [cmpMem, List.any_eq_true]
  refine ⟨⟨?_, ?_⟩, ?_, ?_⟩
  · unfold Frontier.insert
    split
    · exact ⟨hpw, hw, hm⟩
    · rename_i hnm
      have habs : ¬ ∃ k ∈ f.keys, keyEq k key := fun h => hnm (hcm.mpr h)
      refine ⟨?_, ?_, ?_⟩
      · rw [List.pairwise_append]
        refine ⟨hpw, List.pairwise_singleton _ _, ?_⟩
        intro a ha b hb
        rw [List.mem_singleton] at hb
        subst hb
        exact fun he => habs ⟨a, ha, he⟩
      · simp [hw]
      · simp [hm]
  · unfold Frontier.insert
    split
    · rename_i hmem
      simp only [hcm] at hmem
      simp [hmem]
    · rename_i hnm
      have habs : ¬ ∃ k ∈ f.keys, keyEq k key := fun h => hnm (hcm.mpr h)
      simp [habs]
  · intro hkmem
    have hp : (fun x => decide (keyEq x key)) key = true := by
      simp [keyEq]
    have hcmt : cmpMem key f.keys = true := hcm.mpr ⟨key, hkmem, by simp [keyEq]⟩
    unfold Frontier.remove
    rw [if_pos hcmt]
    obtain ⟨a, l₁, l₂, hl₁, hpa, hsplit, herase⟩ := List.exists_of_eraseP (p := fun x => decide (keyEq x key)) hkmem hp
    have haeq : keyEq a key := of_decide_eq_true hpa
    have hakey : a = key := by
      by_contra hne
      have hamem : a ∈ f.keys := by rw [hsplit]; simp
      have := List.Pairwise.forall keyEq_symm hpw hamem hkmem hne
      exact this haeq
    subst hakey
    refine ⟨⟨?_, ?_, ?_⟩, rfl, ?_⟩
    · show List.Pairwise _ (f.keys.eraseP fun x => decide (keyEq x a))
      rw [herase]
      rw [hsplit] at hpw
      exact List.Pairwise.sublist ((List.sublist_cons_self a l₂).append_left l₁) hpw
    · show f.total_weight - keyWeight a =
        ((f.keys.eraseP fun x => decide (keyEq x a)).map keyWeight).sum
      rw [herase]
      rw [hsplit] at hw
      simp only [List.map_append, List.map_cons, List.sum_append, List.sum_cons] at hw ⊢
      rw [hw]
      ring
    · show f.total_mass - a.mass =
        ((f.keys.eraseP fun x => decide (keyEq x a)).map FeerateTransactionKey.mass).sum
      rw [herase]
      rw [hsplit] at hm
      simp only [List.map_append, List.map_cons, List.sum_append, List.sum_cons] at hm ⊢
      omega
    · show (f.keys.eraseP fun x => decide (keyEq x a)).length + 1 = f.keys.length
      rw [herase, hsplit]
      simp only [List.length_append, List.length_cons]
      omega
  · intro habs
    have : cmpMem key f.keys = false := by
      rw [← Bool.not_eq_true, hcm]
      exact habs
    unfold Frontier.remove
    rw [if_neg (by simp [this])]
    exact ⟨rfl, rfl⟩


/-- The `FeerateWeight` search argument (`locate_in_leaf`/`locate_in_inner`,
frontier.rs lines 37-62) flattened over the key list: descend the cumulative
weights until the query no longer exceeds them.  `none` models a query beyond
the total weight (where the source `get_by_argument(..).unwrap()` panics). -/
def get_by_argument (keys : List FeerateTransactionKey) (query : ℚ) :
    Option FeerateTransactionKey :=
  match keys with
  | [] => none
  | k :: ks => if query ≤ keyWeight k then some k else get_by_argument ks (query - keyWeight k)

/-- The inner rejection loop of `Frontier::sample` (frontier.rs lines 118-124):
draw queries until one selects a transaction id outside `seen`; returns the
fresh key and the unconsumed queries.  `none` models an exhausted query
stream (an infinite rejection loop) or an `unwrap` panic. -/
def draw_fresh (keys : List FeerateTransactionKey) (seen : List ℕ) :
    List ℚ → Option (FeerateTransactionKey × List ℚ)
  | [] => none
  | q :: qs =>
    match get_by_argument keys q with
    | none => none
    | some k => if k.txId ∈ seen then draw_fresh keys seen qs else some (k, qs)

/-- The outer sampling loop of `Frontier::sample`: `amount` draws, each
rejecting already-seen transaction ids. -/
def sample_go (keys : List FeerateTransactionKey) :
    ℕ → List ℚ → List ℕ → Option (List FeerateTransactionKey)
  | 0, _, _ => some []
  | amount + 1, qs, seen =>
    match draw_fresh keys seen qs with
    | none => none
    | some (k, qs') => (sample_go keys amount qs' (k.txId :: seen)).map (k :: ·)

/-- `Frontier::sample` (frontier.rs lines 108-127): when the frontier holds at
most `amount` keys, every key is yielded once; otherwise `amount` keys are
drawn by weighted queries with rejection on already-seen transaction ids.
The rng is modelled by the list of uniform queries it would produce. -/
def Frontier.sample (f : Frontier) (queries : List ℚ) (amount : ℕ) :
    Option (List FeerateTransactionKey) :=
  if f.keys.length ≤ amount then some f.keys
  else sample_go f.keys amount queries []

theorem draw_fresh_spec (keys : List FeerateTransactionKey) (seen : List ℕ) :
    ∀ (qs : List ℚ) (k : FeerateTransactionKey) (qs' : List ℚ),
      draw_fresh keys seen qs = some (k, qs') → k.txId ∉ seen := by
  intro qs
  induction qs with
  | nil => intro k qs' h; simp [draw_fresh] at h
  | cons q qs ih =>
    intro k qs' h
    rw [draw_fresh] at h
    rcases hg : get_by_argument keys q with _ | k₀
    · rw [hg] at h; simp at h
    · rw [hg] at h
      dsimp only at h
      by_cases hs : k₀.txId ∈ seen
      · rw [if_pos hs] at h
        exact ih k qs' h
      · rw [if_neg hs] at h
        simp only [Option.some_inj, Prod.mk.injEq] at h
        obtain ⟨rfl, rfl⟩ := h
        exact hs

theorem sample_go_spec (keys : List FeerateTransactionKey) :
    ∀ (amount : ℕ) (qs : List ℚ) (seen : List ℕ) (out : List FeerateTransactionKey),
      sample_go keys amount qs seen = some out →
        out.length = amount ∧ (∀ x ∈ out, x.txId ∉ seen) ∧
          (out.map FeerateTransactionKey.txId).Nodup := by
  intro amount
  induction amount with
  | zero =>
    intro qs seen out h
    simp only [sample_go, Option.some_inj] at h
    subst h
    simp
  | succ n ih =>
    intro qs seen out h
    rw [sample_go] at h
    rcases hd : draw_fresh keys seen qs with _ | ⟨k, qs'⟩
    · rw [hd] at h; simp at h
    · rw [hd] at h
      dsimp only at h
      rcases hrest : sample_go keys n qs' (k.txId :: seen) with _ | rest
      · rw [hrest] at h; simp at h
      · rw [hrest] at h
        simp only [Option.map, Option.some_inj] at h
        subst h
        obtain ⟨hlen, hseen, hnd⟩ := ih qs' (k.txId :: seen) rest hrest
        have hkfresh := draw_fresh_spec keys seen qs k qs' hd
        refine ⟨by simp [hlen], ?_, ?_⟩
        · intro x hx
          rcases List.mem_cons.mp hx with rfl | hmem
          · exact hkfresh
          · intro hcon
            exact hseen x hmem (List.mem_cons_of_mem _ hcon)
        · rw [List.map_cons, List.nodup_cons]
          refine ⟨?_, hnd⟩
          intro hcon
          rcases List.mem_map.mp hcon with ⟨y, hy, hyid⟩
          exact hseen y hy (by rw [hyid]; exact List.mem_cons_self _ _)

/-- **C5.**  Whenever `Frontier::sample` completes (the rejection sampling
terminates within the modelled query stream) on a frontier whose keys carry
pairwise-distinct transaction ids, it yields exactly
`min amount |frontier|` keys with pairwise-distinct transaction ids, and when
`|frontier| ≤ amount` it yields every key exactly once. -/
theorem frontier_sample_distinct (f : Frontier) (queries : List ℚ) (amount : ℕ)
    (out : List FeerateTransactionKey)
    (hids : (f.keys.map FeerateTransactionKey.txId).Nodup)
    (hres : f.sample queries amount = some out) :
    out.length = Nat.min amount f.keys.length ∧
      (out.map FeerateTransactionKey.txId).Nodup ∧
      (f.keys.length ≤ amount → out = f.keys) := by
  unfold Frontier.sample at hres
  by_cases hle : f.keys.length ≤ amount
  · rw [if_pos hle, Option.some_inj] at hres
    subst hres
    exact ⟨(Nat.min_eq_right hle).symm, hids, fun _ => rfl⟩
  · rw [if_neg hle] at hres
    obtain ⟨hlen, _, hnd⟩ := sample_go_spec f.keys amount queries [] out hres
    refine ⟨?_, hnd, fun h => absurd h hle⟩
    rw [hlen]
    exact (Nat.min_eq_left (by omega : amount ≤ f.keys.length)).symm


/-- Witness for C4 at a one-key frontier (insert of a second key; removal of
the contained key). -/
theorem frontier_insert_remove_invariant_witness :
    (Frontier.mk [⟨2, 2, 1, 7⟩] 8 1).Wf ∧
      ((((Frontier.mk [⟨2, 2, 1, 7⟩] 8 1).insert ⟨1, 1, 1, 9⟩).1.Wf ∧
        (((Frontier.mk [⟨2, 2, 1, 7⟩] 8 1).insert ⟨1, 1, 1, 9⟩).2 = true ↔
          ¬ ∃ k ∈ (Frontier.mk [⟨2, 2, 1, 7⟩] 8 1).keys, keyEq k ⟨1, 1, 1, 9⟩)) ∧
      ((⟨1, 1, 1, 9⟩ : FeerateTransactionKey) ∈ (Frontier.mk [⟨2, 2, 1, 7⟩] 8 1).keys →
        ((Frontier.mk [⟨2, 2, 1, 7⟩] 8 1).remove ⟨1, 1, 1, 9⟩).1.Wf ∧
          ((Frontier.mk [⟨2, 2, 1, 7⟩] 8 1).remove ⟨1, 1, 1, 9⟩).2 = true ∧
          ((Frontier.mk [⟨2, 2, 1, 7⟩] 8 1).remove ⟨1, 1, 1, 9⟩).1.keys.length + 1 =
            (Frontier.mk [⟨2, 2, 1, 7⟩] 8 1).keys.length) ∧
      ((¬ ∃ k ∈ (Frontier.mk [⟨2, 2, 1, 7⟩] 8 1).keys, keyEq k ⟨1, 1, 1, 9⟩) →
        ((Frontier.mk [⟨2, 2, 1, 7⟩] 8 1).remove ⟨1, 1, 1, 9⟩).1 =
            Frontier.mk [⟨2, 2, 1, 7⟩] 8 1 ∧
          ((Frontier.mk [⟨2, 2, 1, 7⟩] 8 1).remove ⟨1, 1, 1, 9⟩).2 = false)) :=
  ⟨by
    unfold Frontier.Wf
    refine ⟨by simp, by norm_num [keyWeight, feerate, ALPHA], by decide⟩,
    frontier_insert_remove_invariant (Frontier.mk [⟨2, 2, 1, 7⟩] 8 1) ⟨1, 1, 1, 9⟩
      (by
        unfold Frontier.Wf
        refine ⟨by simp, by norm_num [keyWeight, feerate, ALPHA], by decide⟩)⟩

/-- Witness for C5: sampling one key from a three-key frontier with a
single query. -/
theorem frontier_sample_distinct_witness :
    ((Frontier.mk [⟨2, 2, 1, 1⟩, ⟨1, 1, 1, 2⟩, ⟨1, 1, 1, 3⟩] 0 0).keys.map
        FeerateTransactionKey.txId).Nodup ∧
      (Frontier.mk [⟨2, 2, 1, 1⟩, ⟨1, 1, 1, 2⟩, ⟨1, 1, 1, 3⟩] 0 0).sample [(1 : ℚ) / 2] 1 =
        some [⟨2, 2, 1, 1⟩] ∧
      ([(⟨2, 2, 1, 1⟩ : FeerateTransactionKey)].length =
          Nat.min 1 (Frontier.mk [⟨2, 2, 1, 1⟩, ⟨1, 1, 1, 2⟩, ⟨1, 1, 1, 3⟩] 0 0).keys.length ∧
        ([(⟨2, 2, 1, 1⟩ : FeerateTransactionKey)].map FeerateTransactionKey.txId).Nodup ∧
        ((Frontier.mk [⟨2, 2, 1, 1⟩, ⟨1, 1, 1, 2⟩, ⟨1, 1, 1, 3⟩] 0 0).keys.length ≤ 1 →
          [(⟨2, 2, 1, 1⟩ : FeerateTransactionKey)] =
            (Frontier.mk [⟨2, 2, 1, 1⟩, ⟨1, 1, 1, 2⟩, ⟨1, 1, 1, 3⟩] 0 0).keys)) :=
  ⟨by decide,
    by norm_num [Frontier.sample, sample_go, draw_fresh, get_by_argument, keyWeight, feerate,
      ALPHA],
    frontier_sample_distinct (Frontier.mk [⟨2, 2, 1, 1⟩, ⟨1, 1, 1, 2⟩, ⟨1, 1, 1, 3⟩] 0 0)
      [(1 : ℚ) / 2] 1 [⟨2, 2, 1, 1⟩] (by decide)
      (by norm_num [Frontier.sample, sample_go, draw_fresh, get_by_argument, keyWeight, feerate,
        ALPHA])⟩



/-! ## Mining manager (src/mining/src/manager.rs)

`MiningManager::get_block_template`'s retry loop (manager.rs lines 80-120);
the cached-template fast path (lines 58-74) does not touch the loop and is
treated separately by the builder model.  The mempool state `M` and the built
template type `T` are abstract; `build` composes
`block_candidate_transactions` with
`BlockTemplateBuilder::build_block_template` on the current mempool state, and
`remove_tx` is `Mempool::remove_transaction` (whose body is not among the
given sources) with its `remove_redeemers` flag. -/

/-- `TxRuleError`, collapsed to the only variant the loop distinguishes. -/
inductive TxRuleErrorM where
  | missingTxOutpoints
  | otherTxErr (code : ℕ)
deriving DecidableEq, Repr

/-- `BuilderError`, as matched by `get_block_template`: the consensus
`InvalidTransactionsInNewBlock` rule error carrying the offending transaction
ids with their errors, or any other builder error. -/
inductive BuildErr where
  | invalidTransactionsInNewBlock (txs : List (ℕ × TxRuleErrorM))
  | otherBuildErr (code : ℕ)
deriving DecidableEq, Repr

/-- The loop's removal pass (manager.rs lines 88-114): each cited transaction
is removed, passing `remove_redeemers := (err != MissingTxOutpoints)`. -/
def remove_invalid {M : Type} (remove_tx : M → ℕ → Bool → M) (m : M)
    (l : List (ℕ × TxRuleErrorM)) : M :=
  l.foldl (fun mm xe => remove_tx mm xe.1 (decide (xe.2 ≠ TxRuleErrorM.missingTxOutpoints))) m

/-- The claim's wording of the removal pass: redeemers are kept exactly when
the error is `MissingTxOutpoints`, and removed for every other error. -/
def remove_invalid_spec {M : Type} (remove_tx : M → ℕ → Bool → M) (m : M)
    (l : List (ℕ × TxRuleErrorM)) : M :=
  l.foldl
    (fun mm xe =>
      if xe.2 = TxRuleErrorM.missingTxOutpoints then remove_tx mm xe.1 false
      else remove_tx mm xe.1 true)
    m

/-- `MiningManager::get_block_template`'s retry loop: build against the
current mempool; on `InvalidTransactionsInNewBlock` remove the cited
transactions and retry with a fresh candidate set; return any other error to
the caller; `none` models fuel exhaustion of the unbounded `loop`. -/
def get_block_template_loop {M T : Type} (build : M → Except BuildErr T)
    (remove_tx : M → ℕ → Bool → M) : ℕ → M → Option (Except ℕ T × M)
  | 0, _ => none
  | fuel + 1, m =>
    match build m with
    | .ok t => some (.ok t, m)
    | .error (.invalidTransactionsInNewBlock l) =>
      get_block_template_loop build remove_tx fuel (remove_invalid remove_tx m l)
    | .error (.otherBuildErr e) => some (.error e, m)

/-- The mempool states reachable by removal passes over cited invalid
transactions, as the claim words them. -/
inductive RemovalSteps {M T : Type} (build : M → Except BuildErr T)
    (remove_tx : M → ℕ → Bool → M) : M → M → Prop where
  | refl (m : M) : RemovalSteps build remove_tx m m
  | step (m m' : M) (l : List (ℕ × TxRuleErrorM)) :
      build m = .error (.invalidTransactionsInNewBlock l) →
      RemovalSteps build remove_tx (remove_invalid_spec remove_tx m l) m' →
      RemovalSteps build remove_tx m m'

theorem remove_invalid_eq_spec {M : Type} (remove_tx : M → ℕ → Bool → M)
    (l : List (ℕ × TxRuleErrorM)) : ∀ m : M,
    remove_invalid remove_tx m l = remove_invalid_spec remove_tx m l := by
  induction l with
  | nil => intro m; rfl
  | cons xe l ih =>
    intro m
    unfold remove_invalid remove_invalid_spec
    simp only [List.foldl_cons]
    have hstep : remove_tx m xe.1 (decide (xe.2 ≠ TxRuleErrorM.missingTxOutpoints)) =
        if xe.2 = TxRuleErrorM.missingTxOutpoints then remove_tx m xe.1 false
        else remove_tx m xe.1 true := by
      by_cases hxe : xe.2 = TxRuleErrorM.missingTxOutpoints <;> simp [hxe]
    rw [hstep]
    have := ih (if xe.2 = TxRuleErrorM.missingTxOutpoints then remove_tx m xe.1 false
      else remove_tx m xe.1 true)
    unfold remove_invalid remove_invalid_spec at this
    exact this

/-- **C7.**  Whenever `get_block_template`'s build loop terminates within its
fuel: the final mempool state is reached from the initial one purely by
removal passes — each pass removing every transaction cited by an
`InvalidTransactionsInNewBlock` failure of the build on the then-current
candidate set, keeping its redeemers exactly when that transaction's error is
`MissingTxOutpoints` and removing redeemers for every other error — after
which the build either succeeds with the returned template, or fails with a
non-`InvalidTransactionsInNewBlock` error that is returned to the caller with
no further mempool modification. -/
theorem get_block_template_loop_spec {M T : Type} (build : M → Except BuildErr T)
    (remove_tx : M → ℕ → Bool → M) (fuel : ℕ) (m m' : M) (r : Except ℕ T)
    (h : get_block_template_loop build remove_tx fuel m = some (r, m')) :
    RemovalSteps build remove_tx m m' ∧
      (∀ t, r = .ok t → build m' = .ok t) ∧
      (∀ e, r = .error e → build m' = .error (.otherBuildErr e)) := by
  induction fuel generalizing m with
  | zero => simp [get_block_template_loop] at h
  | succ n ih =>
    rw [get_block_template_loop] at h
    rcases hb : build m with e | t
    · rcases e with l | e
      · rw [hb] at h
        dsimp only at h
        obtain ⟨hsteps, hok, herr⟩ := ih (remove_invalid remove_tx m l) h
        rw [remove_invalid_eq_spec] at hsteps
        exact ⟨RemovalSteps.step m m' l hb hsteps, hok, herr⟩
      · rw [hb] at h
        dsimp only at h
        simp only [Option.some_inj, Prod.mk.injEq] at h
        obtain ⟨rfl, rfl⟩ := h
        refine ⟨RemovalSteps.refl m, ?_, ?_⟩
        · intro t ht; cases ht
        · intro e' he
          cases he
          exact hb
    · rw [hb] at h
      dsimp only at h
      simp only [Option.some_inj, Prod.mk.injEq] at h
      obtain ⟨rfl, rfl⟩ := h
      refine ⟨RemovalSteps.refl m, ?_, ?_⟩
      · intro t' ht
        cases ht
        exact hb
      · intro e he; cases he

/-- Witness for C7: a mempool (modelled by a `ℕ` state) whose first build
fails on one missing-outpoint transaction and whose second build succeeds. -/
theorem get_block_template_loop_spec_witness :
    get_block_template_loop
        (fun m : ℕ => if m = 0 then
          Except.error (BuildErr.invalidTransactionsInNewBlock
            [(5, TxRuleErrorM.missingTxOutpoints)])
          else Except.ok m)
        (fun m x _ => m + x) 2 0 = some (Except.ok 5, 5) ∧
      (RemovalSteps
          (fun m : ℕ => if m = 0 then
            Except.error (BuildErr.invalidTransactionsInNewBlock
              [(5, TxRuleErrorM.missingTxOutpoints)])
            else Except.ok m)
          (fun m x _ => m + x) 0 5 ∧
        (∀ t, (Except.ok 5 : Except ℕ ℕ) = .ok t →
          (if (5 : ℕ) = 0 then
            Except.error (BuildErr.invalidTransactionsInNewBlock
              [(5, TxRuleErrorM.missingTxOutpoints)])
            else Except.ok 5) = .ok t) ∧
        (∀ e, (Except.ok 5 : Except ℕ ℕ) = .error e →
          (if (5 : ℕ) = 0 then
            Except.error (BuildErr.invalidTransactionsInNewBlock
              [(5, TxRuleErrorM.missingTxOutpoints)])
            else Except.ok 5) = .error (.otherBuildErr e))) := by
  refine ⟨rfl, ?_⟩
  have := get_block_template_loop_spec
    (fun m : ℕ => if m = 0 then
      Except.error (BuildErr.invalidTransactionsInNewBlock
        [(5, TxRuleErrorM.missingTxOutpoints)])
      else Except.ok m)
    (fun m x _ => m + x) 2 0 5 (Except.ok 5) rfl
  exact this



/-! ## Block template builder (src/mining/src/block_template/builder.rs)

`BlockTemplateBuilder::modify_block_template` is embedded over a data model
of templates.  `MinerData` follows src/consensus/core/src/coinbase.rs; the
`Transaction`/`Header`/`BlockTemplate` shapes are modelled from the spec's
data model (§3) since consensus-core's tx/header/block modules are not among
the given sources.  Byte strings and hashes are represented by `List ℕ` / `ℕ`;
the consensus services used by the builder (`modify_coinbase_payload`,
`calc_hash_merkle_root`, header hashing, `unix_now`) are parameters, matching
the `&dyn ConsensusApi` indirection of the source. -/

/-- `MinerData` (coinbase.rs lines 3-7). -/
structure MinerData where
  script_public_key : ℕ
  extra_data : List ℕ
deriving DecidableEq, Repr

/-- A transaction output: value and script public key. -/
structure TransactionOutput where
  value : ℕ
  script_public_key : ℕ
deriving DecidableEq, Repr

/-- A transaction, with the fields the builder touches (payload, outputs) and
the remaining ones it must leave unchanged. -/
structure Transaction where
  version : ℕ
  inputs : List ℕ
  outputs : List TransactionOutput
  lock_time : ℕ
  payload : List ℕ
deriving DecidableEq, Repr

/-- A block header (spec §3). `hash` is the cached hash set by `finalize`. -/
structure Header where
  version : ℕ
  parents_by_level : List ℕ
  hash_merkle_root : ℕ
  timestamp : ℕ
  bits : ℕ
  nonce : ℕ
  blue_work : ℕ
  blue_score : ℕ
  daa_score : ℕ
  pruning_point : ℕ
  hash : ℕ
deriving DecidableEq, Repr

/-- A mutable block: header plus transactions (coinbase first). -/
structure MBlock where
  header : Header
  transactions : List Transaction
deriving DecidableEq, Repr

/-- `BlockTemplate` (spec §3): built block, miner data, red-reward flag. -/
structure BlockTemplate where
  block : MBlock
  miner_data : MinerData
  coinbase_has_red_reward : Bool
deriving DecidableEq, Repr

/-- `Header::finalize`: recompute the cached header hash from the header's
contents (the hashing itself is the abstract parameter `header_hash`). -/
def finalize (header_hash : Header → ℕ) (h : Header) : Header :=
  { h with hash := header_hash h }

/-- `outputs.last_mut().unwrap().script_public_key = ...`: replace the script
public key of the last output (the caller handles the empty-list panic). -/
def set_last_spk : List TransactionOutput → ℕ → List TransactionOutput
  | [], _ => []
  | [o], spk => [{ o with script_public_key := spk }]
  | o :: o' :: rest, spk => o :: set_last_spk (o' :: rest) spk

/-- `BlockTemplateBuilder::modify_block_template` (builder.rs lines 102-128):
clone the template; re-payload the coinbase (transaction 0) via consensus;
if `coinbase_has_red_reward`, point the last coinbase output at the new miner
data's script public key; recompute the merkle root over the modified
transactions; advance the timestamp only if `unix_now()` is later; refinalize
the header; set the new miner data.  `none` models the two panics (no
coinbase transaction / no last output), `Except.error` the propagated
consensus error. -/
def modify_block_template (modify_coinbase_payload : List ℕ → MinerData → Except ℕ (List ℕ))
    (calc_hash_merkle_root : List Transaction → ℕ) (header_hash : Header → ℕ)
    (now : ℕ) (new_miner_data : MinerData) (block_template_to_modify : BlockTemplate) :
    Option (Except ℕ BlockTemplate) :=
  match block_template_to_modify.block.transactions with
  | [] => none
  | coinbase_tx :: rest =>
    match modify_coinbase_payload coinbase_tx.payload new_miner_data with
    | .error e => some (.error e)
    | .ok new_payload =>
      let cb1 := { coinbase_tx with payload := new_payload }
      if block_template_to_modify.coinbase_has_red_reward && cb1.outputs.isEmpty then none
      else
        let cb2 :=
          if block_template_to_modify.coinbase_has_red_reward then
            { cb1 with outputs := set_last_spk cb1.outputs new_miner_data.script_public_key }
          else cb1
        let txs := cb2 :: rest
        let h1 := { block_template_to_modify.block.header with
          hash_merkle_root := calc_hash_merkle_root txs }
        let h2 := if h1.timestamp < now then { h1 with timestamp := now } else h1
        some (.ok
          { block := { header := finalize header_hash h2, transactions := txs },
            miner_data := new_miner_data,
            coinbase_has_red_reward := block_template_to_modify.coinbase_has_red_reward })



/-- **C8.**  `modify_block_template` returns a clone of the template in which
only the following change: the coinbase payload becomes the consensus-modified
payload for the new miner data; when `coinbase_has_red_reward` the last
coinbase output's script public key becomes the new miner data's; the
header's merkle root is recomputed over the modified transactions; the
timestamp only ever advances (to `max old now`); the header is refinalized;
and `miner_data` is replaced.  All non-coinbase transactions, all other
coinbase fields, all other header fields and the red-reward flag are
unchanged. -/
theorem modify_block_template_frame
    (mcp : List ℕ → MinerData → Except ℕ (List ℕ)) (merkle : List Transaction → ℕ)
    (hh : Header → ℕ) (now : ℕ) (m : MinerData) (t t' : BlockTemplate)
    (hres : modify_block_template mcp merkle hh now m t = some (.ok t')) :
    ∃ coinbase_tx rest new_payload,
      t.block.transactions = coinbase_tx :: rest ∧
      mcp coinbase_tx.payload m = .ok new_payload ∧
      t'.block.transactions =
        (if t.coinbase_has_red_reward then
          { coinbase_tx with
            payload := new_payload
            outputs := set_last_spk coinbase_tx.outputs m.script_public_key }
        else { coinbase_tx with payload := new_payload }) :: rest ∧
      t'.block.header.hash_merkle_root = merkle t'.block.transactions ∧
      t'.block.header.timestamp =
        (if t.block.header.timestamp < now then now else t.block.header.timestamp) ∧
      t.block.header.timestamp ≤ t'.block.header.timestamp ∧
      t'.block.header.hash = hh { t'.block.header with hash := t.block.header.hash } ∧
      t'.block.header.version = t.block.header.version ∧
      t'.block.header.parents_by_level = t.block.header.parents_by_level ∧
      t'.block.header.bits = t.block.header.bits ∧
      t'.block.header.nonce = t.block.header.nonce ∧
      t'.block.header.blue_work = t.block.header.blue_work ∧
      t'.block.header.blue_score = t.block.header.blue_score ∧
      t'.block.header.daa_score = t.block.header.daa_score ∧
      t'.block.header.pruning_point = t.block.header.pruning_point ∧
      t'.miner_data = m ∧
      t'.coinbase_has_red_reward = t.coinbase_has_red_reward := by
  unfold modify_block_template at hres
  rcases htx : t.block.transactions with _ | ⟨coinbase_tx, rest⟩
  · rw [htx] at hres; simp at hres
  · rw [htx] at hres
    dsimp only at hres
    rcases hp : mcp coinbase_tx.payload m with e | new_payload
    · rw [hp] at hres; simp at hres
    · rw [hp] at hres
      dsimp only at hres
      rcases hguard : t.coinbase_has_red_reward &&
          ({ coinbase_tx with payload := new_payload }).outputs.isEmpty with _ | _
      · rw [hguard] at hres
        simp only [Bool.false_eq_true, if_false, Option.some_inj] at hres
        rcases hres with hres
        injection hres with hres
        subst hres
        refine ⟨coinbase_tx, rest, new_payload, rfl, hp, ?_⟩
        by_cases hts : t.block.header.timestamp < now <;>
          by_cases hred : t.coinbase_has_red_reward <;>
            simp [finalize, hts, hred] <;> omega
      · rw [hguard] at hres
        simp at hres


/-- Witness for C8 at a one-transaction template with a red reward output. -/
theorem modify_block_template_frame_witness :
    modify_block_template (fun p m => .ok (p ++ [m.script_public_key]))
        (fun txs => txs.length) (fun h => h.nonce + h.timestamp) 50 ⟨9, [1]⟩
        ⟨⟨⟨0, [], 0, 10, 0, 7, 0, 0, 0, 0, 3⟩, [⟨1, [], [⟨5, 2⟩], 0, [4]⟩]⟩, ⟨2, []⟩, true⟩ =
      some (.ok ⟨⟨⟨0, [], 1, 50, 0, 7, 0, 0, 0, 0, 57⟩, [⟨1, [], [⟨5, 9⟩], 0, [4, 9]⟩]⟩,
        ⟨9, [1]⟩, true⟩) ∧
    ∃ coinbase_tx rest new_payload,
      (⟨⟨⟨0, [], 0, 10, 0, 7, 0, 0, 0, 0, 3⟩, [⟨1, [], [⟨5, 2⟩], 0, [4]⟩]⟩, ⟨2, []⟩,
          true⟩ : BlockTemplate).block.transactions = coinbase_tx :: rest ∧
      (fun (p : List ℕ) (m : MinerData) =>
        (.ok (p ++ [m.script_public_key]) : Except ℕ (List ℕ))) coinbase_tx.payload ⟨9, [1]⟩ =
          .ok new_payload := by
  refine ⟨rfl, ?_⟩
  obtain ⟨cb, rest, np, h1, h2, _⟩ := modify_block_template_frame
    (fun p m => .ok (p ++ [m.script_public_key])) (fun txs => txs.length)
    (fun h => h.nonce + h.timestamp) 50 ⟨9, [1]⟩
    ⟨⟨⟨0, [], 0, 10, 0, 7, 0, 0, 0, 0, 3⟩, [⟨1, [], [⟨5, 2⟩], 0, [4]⟩]⟩, ⟨2, []⟩, true⟩
    ⟨⟨⟨0, [], 1, 50, 0, 7, 0, 0, 0, 0, 57⟩, [⟨1, [], [⟨5, 9⟩], 0, [4, 9]⟩]⟩, ⟨9, [1]⟩, true⟩ rfl
  exact ⟨cb, rest, np, h1, h2⟩



/-- Modelled from the spec: the length of the coinbase payload head (blue
score and subsidy fields) that `ConsensusApi::modify_coinbase_payload` keeps;
the consensus coinbase module is not among the given sources. -/
def COINBASE_PAYLOAD_KEPT_LEN : ℕ := 16

/-- Modelled from the spec: the miner-data portion of the coinbase payload
(script public key followed by the extra data). -/
def encode_miner_payload (m : MinerData) : List ℕ :=
  m.script_public_key :: m.extra_data

/-- Modelled from the spec: `ConsensusApi::modify_coinbase_payload`
("re-payload the coinbase with new miner data") — keep the payload head,
re-encode the miner portion for the new miner data. -/
def modify_coinbase_payload_model (payload : List ℕ) (m : MinerData) : Except ℕ (List ℕ) :=
  .ok (payload.take COINBASE_PAYLOAD_KEPT_LEN ++ encode_miner_payload m)

/-- Modelled from the spec: the consensus block-assembly context behind
`build_block_template` (selected transactions, coinbase shape, pre-merkle
header) — consensus's builder is not among the given sources.  The coinbase's
last output is the red-blocks reward paying the current miner exactly when
`has_red_reward`. -/
structure BuildContext where
  payload_head : List ℕ
  base_outputs : List TransactionOutput
  red_reward_value : ℕ
  has_red_reward : Bool
  txs : List Transaction
  header0 : Header
  cb_version : ℕ
  cb_inputs : List ℕ
  cb_lock_time : ℕ
deriving DecidableEq, Repr

/-- Modelled from the spec: the coinbase transaction consensus assembles for
miner data `m` in context `ctx`. -/
def coinbase_tx_model (ctx : BuildContext) (m : MinerData) : Transaction :=
  { version := ctx.cb_version
    inputs := ctx.cb_inputs
    outputs := ctx.base_outputs ++
      (if ctx.has_red_reward then [⟨ctx.red_reward_value, m.script_public_key⟩] else [])
    lock_time := ctx.cb_lock_time
    payload := ctx.payload_head ++ encode_miner_payload m }

/-- Modelled from the spec: `build_block_template` — assemble coinbase,
compute the merkle root, finalize the header (spec §4.6). -/
def build_block_template_model (merkle : List Transaction → ℕ) (hh : Header → ℕ)
    (ctx : BuildContext) (m : MinerData) : BlockTemplate :=
  let txs := coinbase_tx_model ctx m :: ctx.txs
  { block :=
      { header := finalize hh { ctx.header0 with hash_merkle_root := merkle txs }
        transactions := txs }
    miner_data := m
    coinbase_has_red_reward := ctx.has_red_reward }

theorem set_last_spk_append (l : List TransactionOutput) (o : TransactionOutput) (spk : ℕ) :
    set_last_spk (l ++ [o]) spk = l ++ [{ o with script_public_key := spk }] := by
  induction l with
  | nil => rfl
  | cons x xs ih =>
    cases hxs : xs ++ [o] with
    | nil => exact absurd hxs (by simp)
    | cons y ys =>
      rw [List.cons_append, hxs, set_last_spk, ← hxs, ih, List.cons_append]

/-- `modify_block_template` on any template whose transactions and red-reward
flag come from consensus context `ctx` (for some previous miner data `m0`)
produces exactly the `ctx`-assembled transactions for the new miner data. -/
theorem modify_block_template_ctx_shape (merkle : List Transaction → ℕ) (hh : Header → ℕ)
    (now : ℕ) (ctx : BuildContext) (hdr : Header) (md0 m0 m : MinerData)
    (hlen : ctx.payload_head.length = COINBASE_PAYLOAD_KEPT_LEN) :
    modify_block_template modify_coinbase_payload_model merkle hh now m
        ⟨⟨hdr, coinbase_tx_model ctx m0 :: ctx.txs⟩, md0, ctx.has_red_reward⟩ =
      some (.ok
        ⟨⟨finalize hh
            (if hdr.timestamp < now then
              { hdr with
                hash_merkle_root := merkle (coinbase_tx_model ctx m :: ctx.txs)
                timestamp := now }
            else { hdr with hash_merkle_root := merkle (coinbase_tx_model ctx m :: ctx.txs) }),
          coinbase_tx_model ctx m :: ctx.txs⟩, m, ctx.has_red_reward⟩) := by
  have hpayload : modify_coinbase_payload_model (coinbase_tx_model ctx m0).payload m =
      .ok (ctx.payload_head ++ encode_miner_payload m) := by
    unfold modify_coinbase_payload_model coinbase_tx_model
    rw [← hlen]
    simp [List.take_left]
  unfold modify_block_template
  dsimp only
  rw [hpayload]
  dsimp only
  by_cases hred : ctx.has_red_reward
  · have houts : (coinbase_tx_model ctx m0).outputs =
        ctx.base_outputs ++ [⟨ctx.red_reward_value, m0.script_public_key⟩] := by
      simp [coinbase_tx_model, hred]
    rw [if_neg (by simp [houts, hred])]
    simp only [hred, if_true, houts, set_last_spk_append]
    by_cases hts : hdr.timestamp < now <;>
      simp [hts, coinbase_tx_model, hred, finalize]
  · rw [if_neg (by simp [hred])]
    simp only [hred, if_false]
    by_cases hts : hdr.timestamp < now <;>
      simp [hts, coinbase_tx_model, hred, finalize]


/-- **C9.**  Applying `modify_block_template` twice — first for miner data
`m1`, then `m2` — to a template built for `m0` yields a template whose
coinbase payload, merkle root and miner data all equal those of a freshly
built template for `m2` (over the same consensus assembly context). -/
theorem modify_modify_matches_fresh (merkle : List Transaction → ℕ) (hh : Header → ℕ)
    (ctx : BuildContext) (m0 m1 m2 : MinerData) (now1 now2 : ℕ)
    (hlen : ctx.payload_head.length = COINBASE_PAYLOAD_KEPT_LEN) :
    ∃ t1 t2 : BlockTemplate,
      modify_block_template modify_coinbase_payload_model merkle hh now1 m1
          (build_block_template_model merkle hh ctx m0) = some (.ok t1) ∧
      modify_block_template modify_coinbase_payload_model merkle hh now2 m2 t1 = some (.ok t2) ∧
      t2.block.transactions.head?.map Transaction.payload =
        ((build_block_template_model merkle hh ctx m2).block.transactions.head?.map
          Transaction.payload) ∧
      t2.block.header.hash_merkle_root =
        (build_block_template_model merkle hh ctx m2).block.header.hash_merkle_root ∧
      t2.miner_data = (build_block_template_model merkle hh ctx m2).miner_data := by
  have hproj : ∀ (hdr : Header) (now M : ℕ),
      (finalize hh (if hdr.timestamp < now then
          { hdr with
            hash_merkle_root := M
            timestamp := now }
        else { hdr with hash_merkle_root := M })).hash_merkle_root = M := by
    intro hdr now M
    by_cases h : hdr.timestamp < now <;> simp [finalize, h]
  refine ⟨_, _, modify_block_template_ctx_shape merkle hh now1 ctx _ m0 m0 m1 hlen,
    modify_block_template_ctx_shape merkle hh now2 ctx _ m1 m1 m2 hlen, rfl, ?_, rfl⟩
  rw [hproj]
  simp [build_block_template_model, finalize]


/-- Witness for C9 at a concrete assembly context with a red reward. -/
theorem modify_modify_matches_fresh_witness :
    (BuildContext.mk (List.replicate 16 0) [⟨8, 4⟩] 3 true []
        ⟨0, [], 0, 5, 0, 0, 0, 0, 0, 0, 0⟩ 1 [] 0).payload_head.length =
      COINBASE_PAYLOAD_KEPT_LEN ∧
    ∃ t1 t2 : BlockTemplate,
      modify_block_template modify_coinbase_payload_model (fun txs => txs.length)
          (fun h => h.nonce + 1) 7 ⟨2, []⟩
          (build_block_template_model (fun txs => txs.length) (fun h => h.nonce + 1)
            (BuildContext.mk (List.replicate 16 0) [⟨8, 4⟩] 3 true []
              ⟨0, [], 0, 5, 0, 0, 0, 0, 0, 0, 0⟩ 1 [] 0) ⟨1, []⟩) = some (.ok t1) ∧
      modify_block_template modify_coinbase_payload_model (fun txs => txs.length)
          (fun h => h.nonce + 1) 9 ⟨3, []⟩ t1 = some (.ok t2) ∧
      t2.block.transactions.head?.map Transaction.payload =
        ((build_block_template_model (fun txs => txs.length) (fun h => h.nonce + 1)
            (BuildContext.mk (List.replicate 16 0) [⟨8, 4⟩] 3 true []
              ⟨0, [], 0, 5, 0, 0, 0, 0, 0, 0, 0⟩ 1 [] 0)
            ⟨3, []⟩).block.transactions.head?.map Transaction.payload) ∧
      t2.block.header.hash_merkle_root =
        (build_block_template_model (fun txs => txs.length) (fun h => h.nonce + 1)
            (BuildContext.mk (List.replicate 16 0) [⟨8, 4⟩] 3 true []
              ⟨0, [], 0, 5, 0, 0, 0, 0, 0, 0, 0⟩ 1 [] 0)
            ⟨3, []⟩).block.header.hash_merkle_root ∧
      t2.miner_data =
        (build_block_template_model (fun txs => txs.length) (fun h => h.nonce + 1)
            (BuildContext.mk (List.replicate 16 0) [⟨8, 4⟩] 3 true []
              ⟨0, [], 0, 5, 0, 0, 0, 0, 0, 0, 0⟩ 1 [] 0) ⟨3, []⟩).miner_data :=
  ⟨by decide,
    modify_modify_matches_fresh (fun txs => txs.length) (fun h => h.nonce + 1)
      (BuildContext.mk (List.replicate 16 0) [⟨8, 4⟩] 3 true []
        ⟨0, [], 0, 5, 0, 0, 0, 0, 0, 0, 0⟩ 1 [] 0) ⟨1, []⟩ ⟨2, []⟩ ⟨3, []⟩ 7 9 (by decide)⟩



/-! ## Orphan pool (src/protocol/flows/src/flowcontext/orphans.rs)

Hashes are `ℕ`.  The `IndexMap<Hash, OrphanBlock>` pool is an association
list (insertion order is irrelevant to the claims below); a block carries its
header's `direct_parents()` and the loosely-maintained child set.  Consensus
is modelled by a static status snapshot `ℕ → Option BlockStatus`
(`async_get_block_status`); `BlockStatus` is modelled from the spec (§4.4) as
the consensus-core blockstatus module is not among the given sources.
`Option.is_none_or` (src/utils/src/option.rs) is written out inline. -/

/-- Block statuses (spec §4.4). -/
inductive BlockStatus where
  | statusInvalid
  | statusHeaderOnly
  | statusUTXOPendingVerification
  | statusUTXOValid
  | statusDisqualifiedFromChain
deriving DecidableEq, Repr

/-- `BlockStatus::is_header_only`. -/
def BlockStatus.is_header_only : BlockStatus → Bool
  | .statusHeaderOnly => true
  | _ => false

/-- `BlockStatus::is_invalid`. -/
def BlockStatus.is_invalid : BlockStatus → Bool
  | .statusInvalid => true
  | _ => false

/-- `BlockStatus::has_block_body`: every status beyond header-only
validation, i.e. neither unknown-equivalent `HeaderOnly` nor `Invalid`. -/
def BlockStatus.has_block_body : BlockStatus → Bool
  | .statusUTXOPendingVerification => true
  | .statusUTXOValid => true
  | .statusDisqualifiedFromChain => true
  | _ => false

/-- `status.is_none_or(|s| s.is_header_only())`: the block's body does not
exist consensus-wise (unknown or header-only). -/
def is_none_or_header_only (s : Option BlockStatus) : Bool :=
  match s with
  | none => true
  | some st => st.is_header_only

/-- `OrphanBlock` (orphans.rs lines 28-36): the block (reduced to its
header's `direct_parents()`) plus the loosely-maintained child set. -/
structure OrphanBlock where
  parents : List ℕ
  children : List ℕ
deriving DecidableEq, Repr

/-- The orphan pool: an insertion-ordered map from hash to orphan block. -/
abbrev OrphanPool := List (ℕ × OrphanBlock)

/-- `self.orphans.get(&h)`. -/
def pool_lookup (pool : OrphanPool) (h : ℕ) : Option OrphanBlock :=
  (pool.find? fun e => decide (e.1 = h)).map Prod.snd

/-- All hashes that can ever be enqueued by the root-search BFS: the queried
orphan plus every direct parent referenced from the pool. -/
def bfs_universe (pool : OrphanPool) (orphan : ℕ) : Finset ℕ :=
  (orphan :: pool.flatMap fun e => e.2.parents).toFinset

theorem pool_lookup_mem (pool : OrphanPool) (h : ℕ) (b : OrphanBlock)
    (hl : pool_lookup pool h = some b) : (h, b) ∈ pool := by
  unfold pool_lookup at hl
  rcases hf : pool.find? fun e => decide (e.1 = h) with _ | e
  · rw [hf] at hl
    exact Option.noConfusion hl
  · rw [hf] at hl
    have hl' : e.2 = b := Option.some_inj.mp hl
    have hmem := List.mem_of_find?_eq_some hf
    have hkey := List.find?_some hf
    simp only [decide_eq_true_eq] at hkey
    rw [← hl', ← hkey]
    exact hmem

theorem pool_lookup_parents_sub (pool : OrphanPool) (h : ℕ) (b : OrphanBlock)
    (hl : pool_lookup pool h = some b) (orphan : ℕ) :
    ∀ p ∈ b.parents, p ∈ bfs_universe pool orphan := by
  intro p hp
  unfold bfs_universe
  rw [List.mem_toFinset, List.mem_cons]
  right
  rw [List.mem_flatMap]
  exact ⟨(h, b), pool_lookup_mem pool h b hl, hp⟩

/-- One enqueue pass over a block's direct parents (orphans.rs lines 106-110):
every not-yet-visited parent is appended to the queue and marked visited. -/
def enqueue_parents (ps : List ℕ) (qv : List ℕ × Finset ℕ) : List ℕ × Finset ℕ :=
  ps.foldl (fun qv p => if p ∈ qv.2 then qv else (qv.1 ++ [p], insert p qv.2)) qv

theorem enqueue_parents_measure (U : Finset ℕ) (ps : List ℕ) (hps : ∀ p ∈ ps, p ∈ U) :
    ∀ (q : List ℕ) (v : Finset ℕ),
      (enqueue_parents ps (q, v)).1.length + (U \ (enqueue_parents ps (q, v)).2).card ≤
        q.length + (U \ v).card := by
  induction ps with
  | nil => intro q v; simp [enqueue_parents]
  | cons p ps ih =>
    intro q v
    have hps' : ∀ x ∈ ps, x ∈ U := fun x hx => hps x (List.mem_cons_of_mem p hx)
    by_cases hp : p ∈ v
    · simpa [enqueue_parents, List.foldl_cons, hp] using ih hps' q v
    · have hpu : p ∈ U := hps p (List.mem_cons_self p ps)
      have hcard : (U \ insert p v).card + 1 = (U \ v).card := by
        have hsub : U \ insert p v = (U \ v).erase p := by
          ext x
          simp only [Finset.mem_sdiff, Finset.mem_insert, Finset.mem_erase]
          tauto
        rw [hsub]
        have hpm : p ∈ U \ v := Finset.mem_sdiff.mpr ⟨hpu, hp⟩
        rw [Finset.card_erase_of_mem hpm]
        have := Finset.card_pos.mpr ⟨p, hpm⟩
        omega
      have hstep := ih hps' (q ++ [p]) (insert p v)
      simp only [enqueue_parents, List.foldl_cons, if_neg hp] at *
      simp only [List.length_append, List.length_singleton] at hstep
      omega



/-- The BFS of `get_orphan_roots` (orphans.rs lines 98-118): process the
queue front; pool members contribute their unvisited parents to the queue
(and flag a known orphan ancestor when distinct from the queried orphan);
non-members are roots when their body does not exist consensus-wise. -/
def get_orphan_roots_go (pool : OrphanPool) (statusOf : ℕ → Option BlockStatus) (orphan : ℕ)
    (queue : List ℕ) (visited : Finset ℕ) (known_orphan_ancestors : Bool) (roots : List ℕ) :
    Bool × List ℕ :=
  match queue with
  | [] => (known_orphan_ancestors, roots)
  | current :: rest =>
    match hl : pool_lookup pool current with
    | some block =>
      let qv := enqueue_parents block.parents (rest, visited)
      get_orphan_roots_go pool statusOf orphan qv.1 qv.2
        (known_orphan_ancestors || decide (orphan ≠ current)) roots
    | none =>
      let roots' := if is_none_or_header_only (statusOf current) then roots ++ [current]
        else roots
      get_orphan_roots_go pool statusOf orphan rest visited known_orphan_ancestors roots'
termination_by (bfs_universe pool orphan \ visited).card + queue.length
decreasing_by
  · have := enqueue_parents_measure (bfs_universe pool orphan) block.parents
      (pool_lookup_parents_sub pool t block hl orphan) ts visited
    simp only [List.length_cons]
    omega
  · simp only [List.length_cons]
    omega



theorem get_orphan_roots_go_nil (pool : OrphanPool) (statusOf : ℕ → Option BlockStatus)
    (orphan : ℕ) (v : Finset ℕ) (k : Bool) (r : List ℕ) :
    get_orphan_roots_go pool statusOf orphan [] v k r = (k, r) := by
  rw [get_orphan_roots_go]

theorem get_orphan_roots_go_cons_some (pool : OrphanPool) (statusOf : ℕ → Option BlockStatus)
    (orphan t : ℕ) (ts : List ℕ) (v : Finset ℕ) (k : Bool) (r : List ℕ) (block : OrphanBlock)
    (hl : pool_lookup pool t = some block) :
    get_orphan_roots_go pool statusOf orphan (t :: ts) v k r =
      get_orphan_roots_go pool statusOf orphan (enqueue_parents block.parents (ts, v)).1
        (enqueue_parents block.parents (ts, v)).2 (k || decide (orphan ≠ t)) r := by
  rw [get_orphan_roots_go]
  split
  · rename_i block' hl'
    rw [hl] at hl'
    cases hl'
    rfl
  · rename_i hl'
    rw [hl] at hl'
    cases hl'

theorem get_orphan_roots_go_cons_none (pool : OrphanPool) (statusOf : ℕ → Option BlockStatus)
    (orphan t : ℕ) (ts : List ℕ) (v : Finset ℕ) (k : Bool) (r : List ℕ)
    (hl : pool_lookup pool t = none) :
    get_orphan_roots_go pool statusOf orphan (t :: ts) v k r =
      get_orphan_roots_go pool statusOf orphan ts v k
        (if is_none_or_header_only (statusOf t) then r ++ [t] else r) := by
  rw [get_orphan_roots_go]
  split
  · rename_i block' hl'
    rw [hl] at hl'
    cases hl'
  · rfl



/-- Ancestors of `orphan` reachable by the BFS closure over direct parents:
`orphan` itself, and the direct parents of every reachable block that is in
the orphan pool. -/
inductive OrphanAncestor (pool : OrphanPool) (orphan : ℕ) : ℕ → Prop where
  | refl : OrphanAncestor pool orphan orphan
  | step {h p : ℕ} {b : OrphanBlock} : OrphanAncestor pool orphan h →
      pool_lookup pool h = some b → p ∈ b.parents → OrphanAncestor pool orphan p

theorem enqueue_parents_mem (ps : List ℕ) : ∀ (q : List ℕ) (v : Finset ℕ),
    (∀ x, x ∈ (enqueue_parents ps (q, v)).2 ↔ x ∈ v ∨ x ∈ ps) ∧
    (∀ x, x ∈ (enqueue_parents ps (q, v)).1 ↔ x ∈ q ∨ (x ∈ ps ∧ x ∉ v)) := by
  induction ps with
  | nil => intro q v; simp [enqueue_parents]
  | cons p ps ih =>
    intro q v
    by_cases hp : p ∈ v
    · have hstep : enqueue_parents (p :: ps) (q, v) = enqueue_parents ps (q, v) := by
        simp [enqueue_parents, List.foldl_cons, hp]
      rw [hstep]
      obtain ⟨h2, h1⟩ := ih q v
      refine ⟨fun x => ?_, fun x => ?_⟩
      · rw [h2 x]
        constructor
        · rintro (hx | hx)
          · exact Or.inl hx
          · exact Or.inr (List.mem_cons_of_mem p hx)
        · rintro (hx | hx)
          · exact Or.inl hx
          · rcases List.mem_cons.mp hx with rfl | hx
            · exact Or.inl hp
            · exact Or.inr hx
      · rw [h1 x]
        constructor
        · rintro (hx | ⟨hx1, hx2⟩)
          · exact Or.inl hx
          · exact Or.inr ⟨List.mem_cons_of_mem p hx1, hx2⟩
        · rintro (hx | ⟨hx1, hx2⟩)
          · exact Or.inl hx
          · rcases List.mem_cons.mp hx1 with rfl | hx1
            · exact absurd hp hx2
            · exact Or.inr ⟨hx1, hx2⟩
    · have hstep : enqueue_parents (p :: ps) (q, v) =
          enqueue_parents ps (q ++ [p], insert p v) := by
        simp [enqueue_parents, List.foldl_cons, hp]
      rw [hstep]
      obtain ⟨h2, h1⟩ := ih (q ++ [p]) (insert p v)
      refine ⟨fun x => ?_, fun x => ?_⟩
      · rw [h2 x]
        simp only [Finset.mem_insert, List.mem_cons]
        tauto
      · rw [h1 x]
        simp only [List.mem_append, List.mem_singleton, Finset.mem_insert, List.mem_cons]
        by_cases hxp : x = p
        · subst hxp
          simp [hp]
          try tauto
        · simp [hxp]
          try tauto

theorem enqueue_parents_nodup (ps : List ℕ) : ∀ (q : List ℕ) (v : Finset ℕ),
    q.Nodup → (∀ x ∈ q, x ∈ v) → (enqueue_parents ps (q, v)).1.Nodup := by
  induction ps with
  | nil => intro q v hnd _; simpa [enqueue_parents] using hnd
  | cons p ps ih =>
    intro q v hnd hsub
    by_cases hp : p ∈ v
    · have hstep : enqueue_parents (p :: ps) (q, v) = enqueue_parents ps (q, v) := by
        simp [enqueue_parents, List.foldl_cons, hp]
      rw [hstep]
      exact ih q v hnd hsub
    · have hstep : enqueue_parents (p :: ps) (q, v) =
          enqueue_parents ps (q ++ [p], insert p v) := by
        simp [enqueue_parents, List.foldl_cons, hp]
      rw [hstep]
      refine ih (q ++ [p]) (insert p v) ?_ ?_
      · rw [List.nodup_append]
        exact ⟨hnd, List.nodup_singleton p, by
          intro a ha hb
          rw [List.mem_singleton] at hb
          subst hb
          exact hp (hsub a ha)⟩
      · intro x hx
        rcases List.mem_append.mp hx with hx | hx
        · exact Finset.mem_insert_of_mem (hsub x hx)
        · rw [List.mem_singleton] at hx
          subst hx
          exact Finset.mem_insert_self x v



theorem get_orphan_roots_go_spec (pool : OrphanPool) (statusOf : ℕ → Option BlockStatus)
    (orphan : ℕ) :
    ∀ (queue : List ℕ) (visited : Finset ℕ) (known : Bool) (roots : List ℕ),
      (∀ h ∈ visited, OrphanAncestor pool orphan h) →
      queue.Nodup →
      (∀ h ∈ queue, h ∈ visited) →
      (∀ h ∈ visited, h ∉ queue →
        ∀ b, pool_lookup pool h = some b → ∀ p ∈ b.parents, p ∈ visited) →
      (∀ h, h ∈ roots ↔ (h ∈ visited ∧ h ∉ queue ∧ pool_lookup pool h = none ∧
        is_none_or_header_only (statusOf h) = true)) →
      orphan ∈ visited →
      ∀ h, h ∈ (get_orphan_roots_go pool statusOf orphan queue visited known roots).2 ↔
        (OrphanAncestor pool orphan h ∧ pool_lookup pool h = none ∧
          is_none_or_header_only (statusOf h) = true) := by
  intro queue visited known roots
  induction queue, visited, known, roots using get_orphan_roots_go.induct pool statusOf orphan with
  | case1 visited known roots =>
    intro H1 _ _ H3 H4 H5 h
    rw [get_orphan_roots_go_nil]
    have hanc_sub : ∀ x, OrphanAncestor pool orphan x → x ∈ visited := by
      intro x hx
      induction hx with
      | refl => exact H5
      | step ha hlk hp ih => exact H3 _ ih (by simp) _ hlk _ hp
    constructor
    · intro hr
      obtain ⟨hv, _, hnone, hcond⟩ := (H4 h).mp hr
      exact ⟨H1 h hv, hnone, hcond⟩
    · rintro ⟨hanc, hnone, hcond⟩
      exact (H4 h).mpr ⟨hanc_sub h hanc, by simp, hnone, hcond⟩
  | case2 visited known roots t ts block hl qv ih =>
    intro H1 H2 H3 H4 H5 H6 h
    rw [get_orphan_roots_go_cons_some pool statusOf orphan t ts visited known roots block hl]
    obtain ⟨hmem2, hmem1⟩ := enqueue_parents_mem block.parents ts visited
    have htv : t ∈ visited := H3 t (List.mem_cons_self t ts)
    have htanc : OrphanAncestor pool orphan t := H1 t htv
    have hnodts : ts.Nodup := (List.nodup_cons.mp H2).2
    have htnotts : t ∉ ts := (List.nodup_cons.mp H2).1
    refine ih ?_ ?_ ?_ ?_ ?_ ?_ h
    · intro x hx
      rcases (hmem2 x).mp hx with hx | hx
      · exact H1 x hx
      · exact OrphanAncestor.step htanc hl hx
    · exact enqueue_parents_nodup block.parents ts visited hnodts
        (fun x hx => H3 x (List.mem_cons_of_mem t hx))
    · intro x hx
      rcases (hmem1 x).mp hx with hx | ⟨hx1, _⟩
      · exact (hmem2 x).mpr (Or.inl (H3 x (List.mem_cons_of_mem t hx)))
      · exact (hmem2 x).mpr (Or.inr hx1)
    · intro x hxv hxq b hb p hp
      by_cases hxvis : x ∈ visited
      · by_cases hxt : x = t
        · subst hxt
          rw [hl] at hb
          cases hb
          exact (hmem2 p).mpr (Or.inr hp)
        · have hxnotq : x ∉ t :: ts := by
            intro hc
            rcases List.mem_cons.mp hc with rfl | hc
            · exact hxt rfl
            · exact hxq ((hmem1 x).mpr (Or.inl hc))
          exact (hmem2 p).mpr (Or.inl (H4 x hxvis hxnotq b hb p hp))
      · rcases (hmem2 x).mp hxv with hxv' | hxv'
        · exact absurd hxv' hxvis
        · exact absurd ((hmem1 x).mpr (Or.inr ⟨hxv', hxvis⟩)) hxq
    · intro x
      rw [H5 x]
      constructor
      · rintro ⟨hv, hq, hnone, hcond⟩
        refine ⟨(hmem2 x).mpr (Or.inl hv), ?_, hnone, hcond⟩
        intro hc
        rcases (hmem1 x).mp hc with hc | ⟨_, hc2⟩
        · exact hq (List.mem_cons_of_mem t hc)
        · exact hc2 hv
      · rintro ⟨hv', hq', hnone, hcond⟩
        by_cases hxvis : x ∈ visited
        · refine ⟨hxvis, ?_, hnone, hcond⟩
          intro hc
          rcases List.mem_cons.mp hc with rfl | hc
          · rw [hl] at hnone; cases hnone
          · exact hq' ((hmem1 x).mpr (Or.inl hc))
        · rcases (hmem2 x).mp hv' with hc | hc
          · exact absurd hc hxvis
          · exact absurd ((hmem1 x).mpr (Or.inr ⟨hc, hxvis⟩)) hq'
    · exact (hmem2 orphan).mpr (Or.inl H6)
  | case3 visited known roots t ts hl rts ih =>
    intro H1 H2 H3 H4 H5 H6 h
    rw [get_orphan_roots_go_cons_none pool statusOf orphan t ts visited known roots hl]
    have hnodts : ts.Nodup := (List.nodup_cons.mp H2).2
    have htnotts : t ∉ ts := (List.nodup_cons.mp H2).1
    have htv : t ∈ visited := H3 t (List.mem_cons_self t ts)
    refine ih ?_ ?_ ?_ ?_ ?_ ?_ h
    · exact H1
    · exact hnodts
    · exact fun x hx => H3 x (List.mem_cons_of_mem t hx)
    · intro x hxv hxq b hb p hp
      by_cases hxt : x = t
      · subst hxt
        rw [hl] at hb
        cases hb
      · have : x ∉ t :: ts := by
          intro hc
          rcases List.mem_cons.mp hc with rfl | hc
          · exact hxt rfl
          · exact hxq hc
        exact H4 x hxv this b hb p hp
    · intro x
      by_cases hcnd : is_none_or_header_only (statusOf t) = true
      · have hrts : rts = roots ++ [t] := dif_pos hcnd
        rw [hrts, List.mem_append, List.mem_singleton, H5 x]
        constructor
        · rintro (⟨hv, hq, hnone, hcond⟩ | rfl)
          · exact ⟨hv, fun hc => hq (List.mem_cons_of_mem t hc), hnone, hcond⟩
          · exact ⟨htv, htnotts, hl, hcnd⟩
        · rintro ⟨hv, hts, hnone, hcond⟩
          by_cases hxt : x = t
          · exact Or.inr hxt
          · refine Or.inl ⟨hv, ?_, hnone, hcond⟩
            intro hc
            rcases List.mem_cons.mp hc with rfl | hc
            · exact hxt rfl
            · exact hts hc
      · have hrts : rts = roots := dif_neg hcnd
        rw [hrts, H5 x]
        constructor
        · rintro ⟨hv, hq, hnone, hcond⟩
          exact ⟨hv, fun hc => hq (List.mem_cons_of_mem t hc), hnone, hcond⟩
        · rintro ⟨hv, hts, hnone, hcond⟩
          by_cases hxt : x = t
          · subst hxt
            exact absurd hcond hcnd
          · refine ⟨hv, ?_, hnone, hcond⟩
            intro hc
            rcases List.mem_cons.mp hc with rfl | hc
            · exact hxt rfl
            · exact hts hc
    · exact H6


/-- The output of an orphan pool block query (orphans.rs lines 15-26). -/
inductive OrphanRootsOutput where
  | roots (v : List ℕ)
  | noRoots
  | notOrphan
  | unknown
deriving DecidableEq, Repr

/-- The root list computed by `get_orphan_roots`' BFS, started (as in the
source) from the queried orphan with itself already visited. -/
def orphan_roots (pool : OrphanPool) (statusOf : ℕ → Option BlockStatus) (orphan : ℕ) :
    List ℕ :=
  (get_orphan_roots_go pool statusOf orphan [orphan] {orphan} false []).2

/-- `OrphanBlocksPool::get_orphan_roots` (orphans.rs lines 98-125): run the
BFS and classify the outcome by the known-orphan-ancestors flag and the root
count. -/
def get_orphan_roots (pool : OrphanPool) (statusOf : ℕ → Option BlockStatus) (orphan : ℕ) :
    OrphanRootsOutput :=
  match (get_orphan_roots_go pool statusOf orphan [orphan] {orphan} false []).1,
      orphan_roots pool statusOf orphan with
  | false, [] => .notOrphan
  | true, [] => .noRoots
  | _, roots => .roots roots

/-- **C2.**  The set of roots computed by `get_orphan_roots` equals the set
of ancestors of the queried orphan — reachable by BFS over direct parents,
the orphan itself included when applicable — that are not in the orphan pool
and whose body is not in consensus (unknown, or header-only). -/
theorem get_orphan_roots_spec (pool : OrphanPool) (statusOf : ℕ → Option BlockStatus)
    (orphan : ℕ) :
    (∀ h, h ∈ orphan_roots pool statusOf orphan ↔
      (OrphanAncestor pool orphan h ∧ pool_lookup pool h = none ∧
        is_none_or_header_only (statusOf h) = true)) ∧
    (∀ v, get_orphan_roots pool statusOf orphan = .roots v →
      v = orphan_roots pool statusOf orphan) := by
  constructor
  · intro h
    refine get_orphan_roots_go_spec pool statusOf orphan [orphan] {orphan} false [] ?_ ?_ ?_ ?_
      ?_ ?_ h
    · intro x hx
      rw [Finset.mem_singleton] at hx
      subst hx
      exact OrphanAncestor.refl
    · exact List.nodup_singleton orphan
    · intro x hx
      rw [List.mem_singleton] at hx
      subst hx
      exact Finset.mem_singleton_self _
    · intro x hxv hxq
      rw [Finset.mem_singleton] at hxv
      subst hxv
      exact absurd (List.mem_singleton_self x) hxq
    · intro x
      simp only [List.not_mem_nil, false_iff]
      rintro ⟨hxv, hxq, _, _⟩
      rw [Finset.mem_singleton] at hxv
      subst hxv
      exact hxq (List.mem_singleton_self x)
    · exact Finset.mem_singleton_self orphan
  · intro v hv
    unfold get_orphan_roots at hv
    rcases hk : (get_orphan_roots_go pool statusOf orphan [orphan] {orphan} false []).1 with
      _ | _ <;>
      rcases hr : orphan_roots pool statusOf orphan with _ | ⟨a, as⟩ <;>
      rw [hk, hr] at hv <;> cases hv <;> try rfl

/-- Witness for C2: a pool holding one orphan (hash 2, parents 1 and 0) where
block 0 has a body and block 1 is unknown to consensus. -/
theorem get_orphan_roots_spec_witness :
    (∀ h, h ∈ orphan_roots [(2, ⟨[1, 0], []⟩)]
        (fun h => if h = 0 then some BlockStatus.statusUTXOValid else none) 2 ↔
      (OrphanAncestor [(2, ⟨[1, 0], []⟩)] 2 h ∧
        pool_lookup [(2, ⟨[1, 0], []⟩)] h = none ∧
        is_none_or_header_only
          ((fun h => if h = 0 then some BlockStatus.statusUTXOValid else none) h) = true)) ∧
    (∀ v, get_orphan_roots [(2, ⟨[1, 0], []⟩)]
        (fun h => if h = 0 then some BlockStatus.statusUTXOValid else none) 2 = .roots v →
      v = orphan_roots [(2, ⟨[1, 0], []⟩)]
        (fun h => if h = 0 then some BlockStatus.statusUTXOValid else none) 2) :=
  get_orphan_roots_spec [(2, ⟨[1, 0], []⟩)]
    (fun h => if h = 0 then some BlockStatus.statusUTXOValid else none) 2



/-- Whether an orphan's parent does not block processing (orphans.rs line
140): the parent is in the currently-processing set, or its status is beyond
none-or-header-only (it has a body, or is invalid and left for consensus to
reject). -/
def parent_processable (statusOf : ℕ → Option BlockStatus) (processing : Finset ℕ)
    (p : ℕ) : Bool :=
  decide (p ∈ processing) || !is_none_or_header_only (statusOf p)

/-- The `unorphan_blocks` work loop (orphans.rs lines 136-153): pop a hash;
if it is a pool orphan whose every direct parent is processable, remove it
from the pool, mark it processing (submission to consensus), and enqueue its
recorded children.  `ProcessQueue` is not among the given sources and is
modelled from the spec as a plain FIFO queue. -/
def unorphan_go (statusOf : ℕ → Option BlockStatus) :
    OrphanPool → List ℕ → Finset ℕ → OrphanPool × Finset ℕ
  | pool, [], processing => (pool, processing)
  | pool, o :: rest, processing =>
    match hl : pool_lookup pool o with
    | some entry =>
      if entry.parents.all (parent_processable statusOf processing) then
        unorphan_go statusOf (pool.eraseP fun e => decide (e.1 = o)) (rest ++ entry.children)
          (insert o processing)
      else unorphan_go statusOf pool rest processing
    | none => unorphan_go statusOf pool rest processing
termination_by pool queue _ => (pool.length, queue.length)
decreasing_by
  · apply Prod.Lex.left
    have hmem := pool_lookup_mem pool o entry hl
    have hlen := List.length_eraseP_of_mem (p := fun e => decide (e.1 = o)) hmem
      (decide_eq_true rfl)
    have hpos := List.length_pos.mpr (List.ne_nil_of_mem hmem)
    omega
  · apply Prod.Lex.right
    simp
  · apply Prod.Lex.right
    simp



/-- `OrphanBlocksPool::iterate_child_orphans` (orphans.rs lines 157-165):
pool members having `hash` among their direct parents. -/
def iterate_child_orphans (pool : OrphanPool) (hash : ℕ) : List ℕ :=
  pool.filterMap fun e => if hash ∈ e.2.parents then some e.1 else none

/-- `OrphanBlocksPool::unorphan_blocks` (orphans.rs lines 127-155): remove
the root, seed the queue with its recorded children (or a pool scan when the
root was not an orphan), and run the work loop.  Returns the remaining pool
and the set of orphans submitted to consensus. -/
def unorphan_blocks (statusOf : ℕ → Option BlockStatus) (pool : OrphanPool) (root : ℕ) :
    OrphanPool × Finset ℕ :=
  let pool' := pool.eraseP fun e => decide (e.1 = root)
  match pool_lookup pool root with
  | some entry => unorphan_go statusOf pool' entry.children ∅
  | none => unorphan_go statusOf pool' (iterate_child_orphans pool' root) ∅

theorem unorphan_go_nil (statusOf : ℕ → Option BlockStatus) (pool : OrphanPool)
    (proc : Finset ℕ) : unorphan_go statusOf pool [] proc = (pool, proc) := by
  rw [unorphan_go]

theorem unorphan_go_cons_some_ready (statusOf : ℕ → Option BlockStatus) (pool : OrphanPool)
    (o : ℕ) (rest : List ℕ) (proc : Finset ℕ) (entry : OrphanBlock)
    (hl : pool_lookup pool o = some entry)
    (hready : entry.parents.all (parent_processable statusOf proc) = true) :
    unorphan_go statusOf pool (o :: rest) proc =
      unorphan_go statusOf (pool.eraseP fun e => decide (e.1 = o)) (rest ++ entry.children)
        (insert o proc) := by
  rw [unorphan_go]
  split
  · rename_i entry' hl'
    rw [hl] at hl'
    cases hl'
    rw [if_pos hready]
  · rename_i hl'
    rw [hl] at hl'
    cases hl'

theorem unorphan_go_cons_some_stuck (statusOf : ℕ → Option BlockStatus) (pool : OrphanPool)
    (o : ℕ) (rest : List ℕ) (proc : Finset ℕ) (entry : OrphanBlock)
    (hl : pool_lookup pool o = some entry)
    (hready : ¬ entry.parents.all (parent_processable statusOf proc) = true) :
    unorphan_go statusOf pool (o :: rest) proc = unorphan_go statusOf pool rest proc := by
  rw [unorphan_go]
  split
  · rename_i entry' hl'
    rw [hl] at hl'
    cases hl'
    rw [if_neg hready]
  · rename_i hl'
    rw [hl] at hl'
    try cases hl'

theorem unorphan_go_cons_none (statusOf : ℕ → Option BlockStatus) (pool : OrphanPool)
    (o : ℕ) (rest : List ℕ) (proc : Finset ℕ) (hl : pool_lookup pool o = none) :
    unorphan_go statusOf pool (o :: rest) proc = unorphan_go statusOf pool rest proc := by
  rw [unorphan_go]
  split
  · rename_i entry' hl'
    rw [hl] at hl'
    cases hl'
  · rfl



/-- An orphan entry is processable w.r.t. a processing set: every direct
parent is processing, or its body exists (or is invalid) consensus-wise. -/
def Ready (statusOf : ℕ → Option BlockStatus) (proc : Finset ℕ) (b : OrphanBlock) : Prop :=
  ∀ p ∈ b.parents, p ∈ proc ∨ is_none_or_header_only (statusOf p) = false

/-- The loose `OrphanBlock.children` invariant (orphans.rs lines 32-35):
every pool member having `d` as a direct parent is in `d`'s child set. -/
def ChildrenSuperset (pool : OrphanPool) : Prop :=
  ∀ ce ∈ pool, ∀ de ∈ pool, de.1 ∈ ce.2.parents → ce.1 ∈ de.2.children

theorem all_parent_processable_iff (statusOf : ℕ → Option BlockStatus) (proc : Finset ℕ)
    (b : OrphanBlock) :
    b.parents.all (parent_processable statusOf proc) = true ↔ Ready statusOf proc b := by
  rw [List.all_eq_true]
  unfold Ready parent_processable
  constructor
  · intro hall p hp
    have := hall p hp
    rcases Bool.or_eq_true_iff.mp this with h | h
    · exact Or.inl (of_decide_eq_true h)
    · right
      rw [Bool.not_eq_true'] at h
      exact h
  · intro hr p hp
    rcases hr p hp with h | h
    · exact Bool.or_eq_true_iff.mpr (Or.inl (decide_eq_true h))
    · exact Bool.or_eq_true_iff.mpr (Or.inr (by rw [Bool.not_eq_true', h]))

theorem pool_lookup_none_iff (pool : OrphanPool) (o : ℕ) :
    pool_lookup pool o = none ↔ ∀ e ∈ pool, e.1 ≠ o := by
  unfold pool_lookup
  rw [Option.map_eq_none', List.find?_eq_none]
  simp

theorem pool_key_unique (pool : OrphanPool) (hnodup : (pool.map Prod.fst).Nodup) (o : ℕ)
    (a b : OrphanBlock) (h1 : (o, a) ∈ pool) (h2 : (o, b) ∈ pool) : a = b := by
  induction pool with
  | nil => cases h1
  | cons e es ih =>
    rw [List.map_cons, List.nodup_cons] at hnodup
    rcases List.mem_cons.mp h1 with rfl | h1m
    · rcases List.mem_cons.mp h2 with he | h2m
      · exact congrArg Prod.snd he.symm
      · exact absurd (List.mem_map_of_mem Prod.fst h2m) (by simpa using hnodup.1)
    · rcases List.mem_cons.mp h2 with rfl | h2m
      · exact absurd (List.mem_map_of_mem Prod.fst h1m) (by simpa using hnodup.1)
      · exact ih hnodup.2 h1m h2m

theorem eraseP_key_ne (pool : OrphanPool) (hnodup : (pool.map Prod.fst).Nodup) (o : ℕ)
    (entry : OrphanBlock) (hmem : (o, entry) ∈ pool) :
    ∀ ce ∈ pool.eraseP fun e => decide (e.1 = o), ce.1 ≠ o := by
  obtain ⟨a, l₁, l₂, hl₁, hpa, hsplit, herase⟩ :=
    List.exists_of_eraseP (p := fun e => decide (e.1 = o)) hmem (decide_eq_true rfl)
  have hao : a.1 = o := of_decide_eq_true hpa
  intro ce hce hceo
  rw [herase] at hce
  rcases List.mem_append.mp hce with hce | hce
  · have := hl₁ ce hce
    rw [decide_eq_true_eq] at this
    exact this hceo
  · rw [hsplit, List.map_append, List.map_cons] at hnodup
    have hnd2 := (List.nodup_append.mp hnodup).2.1
    rw [List.nodup_cons] at hnd2
    have : ce.1 ∈ l₂.map Prod.fst := List.mem_map_of_mem Prod.fst hce
    rw [hceo, ← hao] at this
    exact hnd2.1 this

theorem pool_lookup_of_mem (pool : OrphanPool) (hnodup : (pool.map Prod.fst).Nodup)
    (o : ℕ) (entry : OrphanBlock) (hmem : (o, entry) ∈ pool) :
    pool_lookup pool o = some entry := by
  rcases hl : pool_lookup pool o with _ | b
  · rw [pool_lookup_none_iff] at hl
    exact absurd rfl (hl (o, entry) hmem)
  · have := pool_lookup_mem pool o b hl
    rw [pool_key_unique pool hnodup o entry b hmem this]


/-- Completeness invariant of the work loop: with unique pool keys and the
children-superset invariant, if every currently-ready pool entry is queued or
excused by `E`, then every entry surviving the loop that is ready w.r.t. the
final processing set is excused by `E`. -/
theorem unorphan_go_complete (statusOf : ℕ → Option BlockStatus)
    (E : ℕ × OrphanBlock → Prop) :
    ∀ (pool : OrphanPool) (queue : List ℕ) (proc : Finset ℕ),
      (pool.map Prod.fst).Nodup →
      ChildrenSuperset pool →
      (∀ ce ∈ pool, Ready statusOf proc ce.2 → ce.1 ∈ queue ∨ E ce) →
      ∀ ce ∈ (unorphan_go statusOf pool queue proc).1,
        Ready statusOf (unorphan_go statusOf pool queue proc).2 ce.2 → E ce := by
  intro pool queue proc
  induction pool, queue, proc using unorphan_go.induct statusOf with
  | case1 pool proc =>
    intro _ _ HI ce hce hready
    rw [unorphan_go_nil] at hce hready
    rcases HI ce hce hready with hq | he
    · cases hq
    · exact he
  | case2 pool o rest proc block hl hall ih =>
    intro hnodup hsuper HI ce hce hready
    rw [unorphan_go_cons_some_ready statusOf pool o rest proc block hl hall] at hce hready
    have homem : (o, block) ∈ pool := pool_lookup_mem pool o block hl
    have hsub : (List.eraseP (fun e => decide (e.1 = o)) pool).Sublist pool :=
      List.eraseP_sublist pool
    refine ih ?_ ?_ ?_ ce hce hready
    · exact List.Nodup.sublist (hsub.map Prod.fst) hnodup
    · intro c hc d hd hpd
      exact hsuper c (hsub.subset hc) d (hsub.subset hd) hpd
    · intro c hc hcready
      have hcpool : c ∈ pool := hsub.subset hc
      by_cases hco : c.1 = o
      · exact absurd hco (eraseP_key_ne pool hnodup o block homem c hc)
      · by_cases hcold : Ready statusOf proc c.2
        · rcases HI c hcpool hcold with hq | he
          · rcases List.mem_cons.mp hq with hq | hq
            · exact absurd hq hco
            · exact Or.inl (List.mem_append.mpr (Or.inl hq))
          · exact Or.inr he
        · -- newly ready: some parent became processable only via `insert o proc`
          have honew : o ∈ c.2.parents := by
            by_contra hno
            apply hcold
            intro p hp
            rcases hcready p hp with hpin | hpc
            · rcases Finset.mem_insert.mp hpin with rfl | hpin
              · exact absurd hp hno
              · exact Or.inl hpin
            · exact Or.inr hpc
          have := hsuper c hcpool (o, block) homem honew
          exact Or.inl (List.mem_append.mpr (Or.inr this))
  | case3 pool o rest proc block hl hall ih =>
    intro hnodup hsuper HI ce hce hready
    rw [unorphan_go_cons_some_stuck statusOf pool o rest proc block hl hall] at hce hready
    refine ih hnodup hsuper ?_ ce hce hready
    intro c hc hcready
    rcases HI c hc hcready with hq | he
    · rcases List.mem_cons.mp hq with hq | hq
      · subst hq
        have : c.2 = block := pool_key_unique pool hnodup c.1 c.2 block hc
          (pool_lookup_mem pool c.1 block hl)
        rw [← this] at hall
        exact absurd ((all_parent_processable_iff statusOf proc c.2).mpr hcready) hall
      · exact Or.inl hq
    · exact Or.inr he
  | case4 pool o rest proc hl ih =>
    intro hnodup hsuper HI ce hce hready
    rw [unorphan_go_cons_none statusOf pool o rest proc hl] at hce hready
    refine ih hnodup hsuper ?_ ce hce hready
    intro c hc hcready
    rcases HI c hc hcready with hq | he
    · rcases List.mem_cons.mp hq with hq | hq
      · rw [pool_lookup_none_iff] at hl
        exact absurd hq (hl c hc)
      · exact Or.inl hq
    · exact Or.inr he

/-- Direct-parents view of the block DAG around the counterexample to C6's
literal reading: block 2's only parent is 1, block 1's only parent is 0,
and block 0 is a DAG root. -/
def cParents : ℕ → List ℕ := fun h =>
  if h = 2 then [1] else if h = 1 then [0] else []

/-- Consensus status snapshot for the counterexample: blocks 0 and 1 have
fully validated bodies; every other block is unknown to consensus. -/
def cStatus : ℕ → Option BlockStatus := fun h =>
  if h ≤ 1 then some BlockStatus.statusUTXOValid else none

/-- The counterexample's orphan pool: only block 2 is pooled.  Block 1's
body arrived without ever entering the pool, so no child link points from 1
to 2. -/
def cPool : OrphanPool := [(2, OrphanBlock.mk [1] [])]

/-- DAG ancestry over a direct-parents map `π` (the DAG itself lives in
consensus, beyond the pool's records): `DagAncestor π a b` holds when `a`
equals `b` or is reachable from `b` by repeatedly stepping to a direct
parent. -/
inductive DagAncestor (π : ℕ → List ℕ) : ℕ → ℕ → Prop
  | refl (b : ℕ) : DagAncestor π b b
  | step (a p b : ℕ) : DagAncestor π a p → p ∈ π b → DagAncestor π a b

theorem dagAncestor_zero (a : ℕ) (h : DagAncestor cParents a 0) : a = 0 := by
  cases h with
  | refl => rfl
  | step q p hap hp => simp [cParents] at hp

theorem dagAncestor_one (a : ℕ) (h : DagAncestor cParents a 1) :
    a = 1 ∨ a = 0 := by
  cases h with
  | refl => exact Or.inl rfl
  | step q p hap hp =>
    simp [cParents] at hp
    subst hp
    exact Or.inr (dagAncestor_zero a hap)

theorem dagAncestor_two (a : ℕ) (h : DagAncestor cParents a 2) :
    a = 2 ∨ a = 1 ∨ a = 0 := by
  cases h with
  | refl => exact Or.inl rfl
  | step q p hap hp =>
    simp [cParents] at hp
    subst hp
    exact Or.inr (dagAncestor_one a hap)

/-- C6, counterexample to the literal claim: block 2 is a descendant of the
root 0 whose every proper ancestor (1 and 0) has its body present in
consensus — block 2 is even immediately processable, its one direct parent
1 having a body — yet `unorphan_blocks` on root 0 leaves 2 in the pool: the
cascade walks only pool-recorded child links (or, for an unpooled root, a
scan for the root's direct children), and block 1, never having been
pooled, carries no child link leading to 2. -/
theorem unorphan_blocks_counterexample :
    DagAncestor cParents 0 2 ∧
    (∀ a, DagAncestor cParents a 2 → a ≠ 2 →
      ∃ s, cStatus a = some s ∧ BlockStatus.has_block_body s = true) ∧
    Ready cStatus ∅ (OrphanBlock.mk [1] []) ∧
    (2, OrphanBlock.mk [1] []) ∈ (unorphan_blocks cStatus cPool 0).1 := by
  refine ⟨?_, ?_, ?_, ?_⟩
  · exact DagAncestor.step 0 1 2
      (DagAncestor.step 0 0 1 (DagAncestor.refl 0) (by simp [cParents]))
      (by simp [cParents])
  · intro a ha hne
    rcases dagAncestor_two a ha with rfl | rfl | rfl
    · exact absurd rfl hne
    · exact ⟨BlockStatus.statusUTXOValid, rfl, rfl⟩
    · exact ⟨BlockStatus.statusUTXOValid, rfl, rfl⟩
  · intro p hp
    have hp1 : p = 1 := List.mem_singleton.mp hp
    subst hp1
    exact Or.inr rfl
  · have key : unorphan_blocks cStatus cPool 0 = unorphan_go cStatus cPool [] ∅ := rfl
    rw [key, unorphan_go_nil]
    exact List.mem_singleton_self _

/-- C6 (amended): after `unorphan_blocks(root)` returns, every orphan left
in the pool that is processable with respect to the final processing set —
each direct parent processing, or with body known to consensus, or invalid
— was already processable before the call and does not have `root` among
its direct parents.  Contrapositively, the cascade removes and submits
every pool orphan it unblocks, transitively from `root`'s children; but
discovery follows only the pool's recorded child links, so descendants
connected solely through never-pooled ancestors survive (see the
counterexample). -/
theorem unorphan_blocks_complete (statusOf : ℕ → Option BlockStatus)
    (pool : OrphanPool) (root : ℕ)
    (hnodup : (pool.map Prod.fst).Nodup) (hsuper : ChildrenSuperset pool) :
    ∀ ce ∈ (unorphan_blocks statusOf pool root).1,
      Ready statusOf (unorphan_blocks statusOf pool root).2 ce.2 →
        Ready statusOf ∅ ce.2 ∧ root ∉ ce.2.parents := by
  have hsub : (List.eraseP (fun e => decide (e.1 = root)) pool).Sublist pool :=
    List.eraseP_sublist pool
  have hnodup' : ((pool.eraseP fun e => decide (e.1 = root)).map Prod.fst).Nodup :=
    List.Nodup.sublist (hsub.map Prod.fst) hnodup
  have hsuper' : ChildrenSuperset (pool.eraseP fun e => decide (e.1 = root)) := by
    intro c hc d hd hpd
    exact hsuper c (hsub.subset hc) d (hsub.subset hd) hpd
  rcases hl : pool_lookup pool root with _ | entry
  · have heq : unorphan_blocks statusOf pool root =
        unorphan_go statusOf (pool.eraseP fun e => decide (e.1 = root))
          (iterate_child_orphans (pool.eraseP fun e => decide (e.1 = root)) root) ∅ := by
      unfold unorphan_blocks
      rw [hl]
    rw [heq]
    refine unorphan_go_complete statusOf
      (fun ce => Ready statusOf ∅ ce.2 ∧ root ∉ ce.2.parents)
      (pool.eraseP fun e => decide (e.1 = root))
      (iterate_child_orphans (pool.eraseP fun e => decide (e.1 = root)) root) ∅
      hnodup' hsuper' ?_
    intro c hc hcready
    by_cases hroot : root ∈ c.2.parents
    · left
      unfold iterate_child_orphans
      exact List.mem_filterMap.mpr ⟨c, hc, by rw [if_pos hroot]⟩
    · exact Or.inr ⟨hcready, hroot⟩
  · have heq : unorphan_blocks statusOf pool root =
        unorphan_go statusOf (pool.eraseP fun e => decide (e.1 = root))
          entry.children ∅ := by
      unfold unorphan_blocks
      rw [hl]
    rw [heq]
    refine unorphan_go_complete statusOf
      (fun ce => Ready statusOf ∅ ce.2 ∧ root ∉ ce.2.parents)
      (pool.eraseP fun e => decide (e.1 = root)) entry.children ∅
      hnodup' hsuper' ?_
    intro c hc hcready
    by_cases hroot : root ∈ c.2.parents
    · left
      exact hsuper c (hsub.subset hc) (root, entry)
        (pool_lookup_mem pool root entry hl) hroot
    · exact Or.inr ⟨hcready, hroot⟩

/-- Witness for the amended C6 theorem at the concrete single-orphan pool:
both hypotheses hold there, and the surviving orphan 2 — processable
w.r.t. the empty final processing set — is indeed already processable and
not a direct child of the root 0. -/
theorem unorphan_blocks_complete_witness :
    ((cPool.map Prod.fst).Nodup ∧ ChildrenSuperset cPool) ∧
    (Ready cStatus (unorphan_blocks cStatus cPool 0).2 (OrphanBlock.mk [1] []) →
      Ready cStatus ∅ (OrphanBlock.mk [1] []) ∧
        0 ∉ (OrphanBlock.mk [1] []).parents) := by
  have hsup : ChildrenSuperset cPool := by
    intro ce hce de hde hpd
    have h1 : ce = (2, OrphanBlock.mk [1] []) := List.mem_singleton.mp hce
    have h2 : de = (2, OrphanBlock.mk [1] []) := List.mem_singleton.mp hde
    rw [h1, h2] at hpd ⊢
    simp at hpd
  constructor
  · exact ⟨by decide, hsup⟩
  · intro hready
    have key : unorphan_blocks cStatus cPool 0 = unorphan_go cStatus cPool [] ∅ := rfl
    have hmem : (2, OrphanBlock.mk [1] []) ∈ (unorphan_blocks cStatus cPool 0).1 := by
      rw [key, unorphan_go_nil]
      exact List.mem_singleton_self _
    exact unorphan_blocks_complete cStatus cPool 0 (by decide) hsup
      (2, OrphanBlock.mk [1] []) hmem hready

end KaspaSpec
